import Mathlib

/-!
Shallow embedding of the retrieval-quality core of the Custom-gpt repository:
the structure-aware chunker (`app/services/text_splitter.py`) and the hybrid
lexical+vector retrieval / reranking engine (`app/services/vector_service.py`,
`app/services/qa_service.py`).

Modelling conventions:
* Python strings are Lean `String`s; most computation happens on `List Char`
  (`String.data`).  Python's `str.strip`, `str.lower`, `str.split`,
  `str.replace` and the concrete regular expressions of `_clean_md` are
  translated into structural recursive functions below.
* Python `float` arithmetic is modelled by exact rational arithmetic (`ℚ`).
  `math.log` is transcendental and therefore kept as an explicit function
  parameter of the engine; every theorem below holds for an arbitrary
  interpretation of that parameter.
* Python dicts holding retrieval candidates are modelled by the `Candidate`
  record; keys that the pipeline adds to a dict (`_vec`, `_lex`, `_hybrid`,
  `rerank_score`, `_score`) are `Option ℚ` fields initialised to `none`.
* Python `set`s of tokens are modelled as duplicate-free `List String`s.
* The external S3 vector store and the embedding / generation providers are
  out of scope (they are external collaborators); they enter as explicit
  function parameters, with fallibility modelled by `Except String`.
-/

namespace CGpt

/-! ## Python-style character and string helpers -/

/-- The characters accepted by Python's `str.isspace` / the regex class `\s`
(ASCII whitespace, the information separators, NEL and NBSP and the common
Unicode space separators). -/
def pyIsSpace (c : Char) : Bool :=
  c ∈ [' ', '\t', '\n', '\r', Char.ofNat 11, Char.ofNat 12,
       Char.ofNat 28, Char.ofNat 29, Char.ofNat 30, Char.ofNat 31,
       Char.ofNat 133, Char.ofNat 160, Char.ofNat 0x1680, Char.ofNat 0x2000,
       Char.ofNat 0x2001, Char.ofNat 0x2002, Char.ofNat 0x2003, Char.ofNat 0x2004,
       Char.ofNat 0x2005, Char.ofNat 0x2006, Char.ofNat 0x2007, Char.ofNat 0x2008,
       Char.ofNat 0x2009, Char.ofNat 0x200a, Char.ofNat 0x2028, Char.ofNat 0x2029,
       Char.ofNat 0x202f, Char.ofNat 0x205f, Char.ofNat 0x3000]

/-- Python `s.strip()` on a character list: drop leading and trailing
whitespace. -/
def pyStrip (l : List Char) : List Char :=
  ((l.dropWhile pyIsSpace).reverse.dropWhile pyIsSpace).reverse

/-- Python `s.strip()` on strings. -/
def pyStripStr (s : String) : String := ⟨pyStrip s.data⟩

/-- Python `s.strip(chars)`: drop the characters of `cs` from both ends. -/
def pyStripChars (cs : List Char) (l : List Char) : List Char :=
  ((l.dropWhile (· ∈ cs)).reverse.dropWhile (· ∈ cs)).reverse

/-- Python `s.lower()` (restricted to the ASCII case mapping, which is all the
keyword tables of the source use). -/
def pyLower (s : String) : String := ⟨s.data.map Char.toLower⟩

/-- Substring test on character lists (Python's `sub in s`). -/
def substrAt : List Char → List Char → Bool
  | sub, [] => sub.isEmpty
  | sub, x :: xs => sub.isPrefixOf (x :: xs) || substrAt sub xs

/-- Python `sub in s` for strings. -/
def pyIn (sub s : String) : Bool := substrAt sub.data s.data

/-- One state-machine pass of `re.sub(r"\s+", " ", t)`: every maximal run of
whitespace becomes a single `' '`.  `prevSpace` records whether the previous
character belonged to a whitespace run already replaced. -/
def collapseGo (prevSpace : Bool) : List Char → List Char
  | [] => []
  | x :: xs =>
    if pyIsSpace x then
      if prevSpace then collapseGo true xs else ' ' :: collapseGo true xs
    else x :: collapseGo false xs

/-- Python `re.sub(r"\s+", " ", t)`. -/
def collapseWs (l : List Char) : List Char := collapseGo false l

/-- Number of non-overlapping occurrences of the two-character pattern `cc`,
scanned left to right (so `ccc` counts once, `cccc` twice).  These are exactly
the delimiter occurrences the lazy regex `cc(.*?)cc` consumes. -/
def countCC (c : Char) : List Char → Nat
  | [] => 0
  | [_] => 0
  | x :: y :: rest =>
    if x = c ∧ y = c then countCC c rest + 1 else countCC c (y :: rest)

/-- Remove the first `k` non-overlapping left-to-right occurrences of the
two-character pattern `cc`, keeping all other characters. -/
def removeCC (c : Char) : Nat → List Char → List Char
  | 0, l => l
  | _ + 1, [] => []
  | _ + 1, [x] => [x]
  | k + 1, x :: y :: rest =>
    if x = c ∧ y = c then removeCC c k rest
    else x :: removeCC c (k + 1) (y :: rest)

/-- Python `re.sub(r"cc(.*?)cc", r"\1", t)` for a doubled delimiter character
`c` (the source uses it with `c = '*'` and `c = '_'`).

The lazy scan pairs up the left-to-right non-overlapping occurrences of `cc`:
the 1st occurrence opens a match that the 2nd closes (the group between them
contains no further `cc` by minimality of the lazy quantifier), the 3rd opens
a match that the 4th closes, and so on.  Each match is replaced by its group,
i.e. exactly the delimiter characters disappear.  A final unpaired occurrence
has no closing delimiter, so the regex engine leaves it (and everything after
it) untouched.  Hence the substitution removes precisely the first
`2 * (n / 2)` occurrences, where `n` is the total occurrence count. -/
def sub2 (c : Char) (l : List Char) : List Char :=
  removeCC c (2 * (countCC c l / 2)) l

/-- Remove the first `k` occurrences of the character `c`. -/
def removeC (c : Char) : Nat → List Char → List Char
  | 0, l => l
  | _ + 1, [] => []
  | k + 1, x :: rest =>
    if x = c then removeC c k rest else x :: removeC c (k + 1) rest

/-- Python `re.sub(r"c([^c]*)c", r"\1", t)` for a single delimiter character
`c` (the source uses it with the backquote character).  The pattern pairs the
1st and 2nd occurrence of `c`, the 3rd and 4th, and so on (the text between
two consecutive occurrences contains no `c`, matching `[^c]*`); a final
unpaired occurrence stays.  So the substitution removes exactly the first
`2 * (n / 2)` occurrences of `c`. -/
def sub1 (c : Char) (l : List Char) : List Char :=
  removeC c (2 * (l.count c / 2)) l

/-- The backquote character (written via its code point). -/
def btick : Char := Char.ofNat 96

/-- `_clean_md` from `app/services/text_splitter.py`:
strip, remove `**...**` pairs, remove `__...__` pairs, remove inline-code
backquote pairs, collapse whitespace runs to single spaces, strip. -/
def cleanMd (l : List Char) : List Char :=
  pyStrip (collapseWs (sub1 btick (sub2 '_' (sub2 '*' (pyStrip l)))))

/-- `_clean_md` on strings. -/
def cleanMdStr (s : String) : String := ⟨cleanMd s.data⟩

/-! ## The structure-aware chunker (`app/services/text_splitter.py`) -/

/-- A chunk produced by the chunker: content, structural type, optional page
number and section path (the dictionaries built by `_process_text_chunk` /
`_process_table_chunk`). -/
structure Chunk where
  content : String
  type : String
  pageNumber : Option Int
  sectionPath : String
deriving DecidableEq, Repr

/-- `_classify_text_block`: keyword-based classification of a text block. -/
def classifyTextBlock (text : String) : String :=
  let tl := pyLower text
  if ["definition:", "means ", "is defined as", "refers to"].any (fun k => pyIn k tl) then
    "definition"
  else if ["steps", "procedure", "how to", "process", "method"].any (fun k => pyIn k tl) then
    "procedure"
  else "text_paragraph"

/-- `_build_prefix`: provenance header `"Section: .. | Table: .. | Page: .."`,
omitting absent parts.  (Python treats both `None` and the empty string as an
absent table title.) -/
def buildPrefixStr (sectionPath : String) (tableTitle : Option String)
    (pageNumber : Option Int) : String :=
  let parts : List String :=
    (if sectionPath ≠ "" then ["Section: " ++ sectionPath] else []) ++
    (match tableTitle with
     | some t => if t ≠ "" then ["Table: " ++ t] else []
     | none => []) ++
    (match pageNumber with
     | some n => ["Page: " ++ toString n]
     | none => [])
  pyStripStr (String.intercalate " | " parts)

/-- The sliding-window loop of `_ParagraphSplitter.split_text`, with explicit
fuel (the loop advances by `step = chunk_size - chunk_overlap ≥ 1` characters
per iteration, so `t.length` iterations always suffice). -/
def windowsAux (size step : Nat) : Nat → List Char → List (List Char)
  | 0, _ => []
  | fuel + 1, t => if t.isEmpty then [] else t.take size :: windowsAux size step fuel (t.drop step)

/-- `_ParagraphSplitter.split_text` on a character list: fixed-size windows of
`size` characters starting every `size - overlap` characters.  (The
constructor of `_ParagraphSplitter` rejects `overlap ≥ size`.) -/
def windows (size overlap : Nat) (t : List Char) : List (List Char) :=
  windowsAux size (size - overlap) t.length t

/-- `_ParagraphSplitter.split_text` on strings. -/
def splitTextWindows (size overlap : Nat) (t : String) : List String :=
  (windows size overlap t.data).map (fun w => ⟨w⟩)

/-- `_process_text_chunk`: join the buffered lines, clean, classify, and
either emit one atomic chunk or split into overlapping windows (dropping
windows that are empty after stripping). -/
def processTextChunk (chunkSize overlap : Nat) (buffer : List String)
    (sectionPath : String) (pageNumber : Option Int) : List Chunk :=
  let content := pyStripStr (String.intercalate " " buffer)
  if content = "" then []
  else
    let content := cleanMdStr content
    let ctype := classifyTextBlock content
    let pref := buildPrefixStr sectionPath none pageNumber
    if chunkSize < content.length then
      (splitTextWindows chunkSize overlap content).filterMap (fun ch =>
        let ch := pyStripStr ch
        if ch = "" then none
        else some ⟨if pref ≠ "" then pyStripStr (pref ++ "\n" ++ ch) else ch,
                   ctype, pageNumber, sectionPath⟩)
    else
      [⟨if pref ≠ "" then pyStripStr (pref ++ "\n" ++ content) else content,
        ctype, pageNumber, sectionPath⟩]

/-- Python `s.split('|')` on a character list (keeps empty fields). -/
def splitPipe : List Char → List (List Char)
  | [] => [[]]
  | c :: rest =>
    if c = '|' then [] :: splitPipe rest
    else
      match splitPipe rest with
      | g :: gs => (c :: g) :: gs
      | [] => [[c]]

/-- Header extraction of `_process_table_chunk`:
`[_clean_md(h.strip()) for h in header_line.strip('| \n').split('|')]`. -/
def headersOf (headerLine : String) : List String :=
  (splitPipe (pyStripChars ['|', ' ', '\n'] headerLine.data)).map
    (fun h => cleanMdStr (pyStripStr ⟨h⟩))

/-- The per-data-row body of `_process_table_chunk`'s loop: strip the line,
skip separator and empty lines, split into cells, skip rows whose cell count
differs from the header count, join the `"<header>: <cell>"` pairs whose
header and cell are both non-empty with `". "`, and skip rows whose joined
content is empty. -/
def rowChunk (headers : List String) (pref sectionPath : String)
    (pageNumber : Option Int) (line : String) : Option Chunk :=
  let line := pyStripStr line
  if ("|--" : String).data.isPrefixOf line.data ∨ line = "" then none
  else
    let cells := (splitPipe (pyStripChars ['|', ' ', '\n'] line.data)).map
      (fun c => cleanMdStr (pyStripStr ⟨c⟩))
    if cells.length ≠ headers.length then none
    else
      let parts := (headers.zip cells).filterMap
        (fun hc => if hc.1 ≠ "" ∧ hc.2 ≠ "" then some (hc.1 ++ ": " ++ hc.2) else none)
      let rowContent := String.intercalate ". " parts
      if rowContent = "" then none
      else
        let rowContent := cleanMdStr rowContent
        some ⟨if pref ≠ "" then pyStripStr (pref ++ "\n" ++ rowContent) else rowContent,
              "table_row", pageNumber, sectionPath⟩

/-- `_process_table_chunk`: first buffered line gives the headers, each later
line is processed by `rowChunk`. -/
def processTableChunk (buffer : List String) (sectionPath : String)
    (tableTitle : Option String) (pageNumber : Option Int) : List Chunk :=
  match buffer with
  | [] => []
  | headerLine :: rest =>
    let headers := headersOf headerLine
    let pref := buildPrefixStr sectionPath tableTitle pageNumber
    rest.filterMap (rowChunk headers pref sectionPath pageNumber)

/-! ## Facts about the cleaning pipeline, towards claim C6 -/

/-- Whether some two adjacent characters of the list satisfy `f`. -/
def adjPair (f : Char → Char → Bool) : List Char → Bool
  | [] => false
  | [_] => false
  | x :: y :: rest => f x y || adjPair f (y :: rest)

/-- Two adjacent copies of the character `c` occur in the list. -/
def hasCC (c : Char) (l : List Char) : Bool := adjPair (fun a b => a = c && b = c) l

/-- Two adjacent whitespace characters occur in the list. -/
def hasWW (l : List Char) : Bool := adjPair (fun a b => pyIsSpace a && pyIsSpace b) l

theorem adjPair_tail {f : Char → Char → Bool} {x : Char} {xs : List Char}
    (h : adjPair f (x :: xs) = false) : adjPair f xs = false := by
  cases xs with
  | nil => rfl
  | cons y rest => simpa [adjPair] using And.right (by simpa [adjPair] using h)

theorem adjPair_cons_of {f : Char → Char → Bool} {xs : List Char} (x : Char)
    (h : adjPair f xs = true) : adjPair f (x :: xs) = true := by
  cases xs with
  | nil => simp [adjPair] at h
  | cons y rest => simp [adjPair] at h ⊢; tauto

theorem adjPair_append_right {f : Char → Char → Bool} {l : List Char} (t : List Char)
    (h : adjPair f l = true) : adjPair f (l ++ t) = true := by
  induction l with
  | nil => simp [adjPair] at h
  | cons x xs ih =>
    cases xs with
    | nil => simp [adjPair] at h
    | cons y rest =>
      simp only [adjPair, Bool.or_eq_true] at h ⊢
      rcases h with h | h
      · exact Or.inl h
      · exact Or.inr (by simpa using ih (by simpa [adjPair] using h))

theorem adjPair_append_left {f : Char → Char → Bool} {l : List Char} (s : List Char)
    (h : adjPair f l = true) : adjPair f (s ++ l) = true := by
  induction s with
  | nil => simpa using h
  | cons x xs ih => exact adjPair_cons_of x ih

/-- Adjacent pairs survive passing to a contiguous sublist, so absence of an
adjacent pair is inherited by infixes. -/
theorem adjPair_eq_false_of_isInfix {f : Char → Char → Bool} {l m : List Char}
    (h : adjPair f l = false) (hm : m <:+: l) : adjPair f m = false := by
  rcases hm with ⟨s, t, rfl⟩
  by_contra hc
  have hmt : adjPair f m = true := by
    revert hc; cases adjPair f m <;> simp
  have hbig : adjPair f (s ++ (m ++ t)) = true :=
    adjPair_append_left s (adjPair_append_right t hmt)
  have h2 : adjPair f (s ++ (m ++ t)) = false := by
    simpa [List.append_assoc] using h
  rw [hbig] at h2
  exact Bool.noConfusion h2

/-- `pyStrip` returns a contiguous sublist of its input. -/
theorem pyStrip_isInfix (l : List Char) : pyStrip l <:+: l := by
  have h1 : l.dropWhile pyIsSpace <:+ l := List.dropWhile_suffix pyIsSpace
  have h2 : (l.dropWhile pyIsSpace).reverse.dropWhile pyIsSpace <:+
      (l.dropWhile pyIsSpace).reverse := List.dropWhile_suffix pyIsSpace
  have h3 : ((l.dropWhile pyIsSpace).reverse.dropWhile pyIsSpace).reverse <+:
      l.dropWhile pyIsSpace := by
    have h4 := (@List.reverse_suffix Char
      ((l.dropWhile pyIsSpace).reverse.dropWhile pyIsSpace).reverse (l.dropWhile pyIsSpace)).mp
    apply h4
    simpa using h2
  exact h3.isInfix.trans h1.isInfix

theorem mem_of_isInfix {a : Char} {m l : List Char} (hm : m <:+: l) (ha : a ∈ m) : a ∈ l :=
  List.Sublist.mem ha hm.sublist

/-- Characters emitted by the whitespace collapser are either the space it
inserts or characters of the input. -/
theorem mem_collapseGo {x : Char} : ∀ (b : Bool) (l : List Char),
    x ∈ collapseGo b l → x = ' ' ∨ x ∈ l := by
  intro b l
  induction l generalizing b with
  | nil => simp [collapseGo]
  | cons y ys ih =>
    intro hx
    by_cases hy : pyIsSpace y
    · cases b with
      | true =>
        have hx' : x ∈ collapseGo true ys := by simpa [collapseGo, hy] using hx
        rcases ih true hx' with h | h
        · exact Or.inl h
        · exact Or.inr (List.mem_cons_of_mem _ h)
      | false =>
        have hx' : x = ' ' ∨ x ∈ collapseGo true ys := by
          simpa [collapseGo, hy, List.mem_cons] using hx
        rcases hx' with h | h
        · exact Or.inl h
        · rcases ih true h with h2 | h2
          · exact Or.inl h2
          · exact Or.inr (List.mem_cons_of_mem _ h2)
    · have hx' : x = y ∨ x ∈ collapseGo false ys := by
        simpa [collapseGo, hy, List.mem_cons] using hx
      rcases hx' with h | h
      · exact Or.inr (h ▸ List.mem_cons_self _ _)
      · rcases ih false h with h2 | h2
        · exact Or.inl h2
        · exact Or.inr (List.mem_cons_of_mem _ h2)

/-- Head of the collapser output in the `prevSpace = true` state is never
whitespace (a pending run has just been replaced). -/
theorem headTrue_collapseGo : ∀ (l : List Char) {h : Char},
    (collapseGo true l).head? = some h → pyIsSpace h = false := by
  intro l
  induction l with
  | nil => intro h hh; simp [collapseGo] at hh
  | cons y ys ih =>
    intro h hh
    by_cases hy : pyIsSpace y
    · exact ih (by simpa [collapseGo, hy] using hh)
    · have hyh : y = h := by simpa [collapseGo, hy] using hh
      rw [← hyh]
      simpa using hy

/-- Head of the collapser output: the head of the input, with whitespace
replaced by a single space. -/
theorem head_collapseGo_false : ∀ (l : List Char),
    (collapseGo false l).head? = l.head?.map (fun y => if pyIsSpace y then ' ' else y) := by
  intro l
  cases l with
  | nil => rfl
  | cons y ys =>
    by_cases hy : pyIsSpace y <;> simp [collapseGo, hy]

/-- Whitespace collapsing cannot create an adjacent pair of copies of a
non-whitespace character. -/
theorem hasCC_collapseGo {c : Char} (hc : pyIsSpace c = false) :
    ∀ (l : List Char) (b : Bool), hasCC c l = false → hasCC c (collapseGo b l) = false := by
  have hspc : ¬ ((' ' : Char) = c) := by
    intro he
    rw [← he] at hc
    have hsp : pyIsSpace ' ' = true := by decide
    rw [hsp] at hc
    exact Bool.noConfusion hc
  intro l
  induction l with
  | nil => intro b _; cases b <;> rfl
  | cons y ys ih =>
    intro b hl
    have hys : hasCC c ys = false := adjPair_tail hl
    by_cases hy : pyIsSpace y
    · cases b with
      | true => simpa [collapseGo, hy] using ih true hys
      | false =>
        have hrec : hasCC c (collapseGo true ys) = false := ih true hys
        simp only [collapseGo, hy, if_true]
        cases hw : collapseGo true ys with
        | nil => rfl
        | cons h w =>
          have h2 : adjPair (fun a b => a = c && b = c) (h :: w) = false := by
            rw [← hw]; exact hrec
          simp only [hasCC, adjPair, Bool.or_eq_false_iff]
          exact ⟨by simp [hspc], h2⟩
    · have hrec : hasCC c (collapseGo false ys) = false := ih false hys
      simp only [collapseGo, hy, if_neg, Bool.false_eq_true, if_false]
      cases hw : collapseGo false ys with
      | nil => rfl
      | cons h w =>
        have h2 : adjPair (fun a b => a = c && b = c) (h :: w) = false := by
          rw [← hw]; exact hrec
        have h1 : (decide (y = c) && decide (h = c)) = false := by
          by_cases hyc : y = c
          · have hne : ¬ (h = c) := by
              intro hhc
              have hh := head_collapseGo_false ys
              rw [hw] at hh
              cases ys with
              | nil => simp at hh
              | cons z zs =>
                have hhz : h = if pyIsSpace z then ' ' else z := by simpa using hh
                by_cases hzs : pyIsSpace z
                · rw [if_pos hzs] at hhz
                  exact hspc (hhz.symm.trans hhc)
                · rw [if_neg hzs] at hhz
                  have hzc : z = c := hhz.symm.trans hhc
                  have hbad : hasCC c (y :: z :: zs) = true := by
                    simp [hasCC, adjPair, hyc, hzc]
                  rw [hbad] at hl
                  exact Bool.noConfusion hl
            simp [hne]
          · simp [hyc]
        simp only [hasCC, adjPair, Bool.or_eq_false_iff]
        exact ⟨h1, h2⟩

/-- Every whitespace character the collapser emits is the plain space. -/
theorem collapseGo_spaces : ∀ (b : Bool) (l : List Char) (x : Char),
    x ∈ collapseGo b l → pyIsSpace x → x = ' ' := by
  intro b l
  induction l generalizing b with
  | nil => simp [collapseGo]
  | cons y ys ih =>
    intro x hx hsp
    by_cases hy : pyIsSpace y
    · cases b with
      | true => exact ih true x (by simpa [collapseGo, hy] using hx) hsp
      | false =>
        simp only [collapseGo, hy, if_true] at hx
        rcases List.mem_cons.mp hx with h | h
        · exact h
        · exact ih true x h hsp
    · simp only [collapseGo, hy, if_false] at hx
      rcases List.mem_cons.mp hx with h | h
      · exact absurd (h ▸ hsp) (by simp [hy])
      · exact ih false x h hsp

/-- The collapser output never has two adjacent whitespace characters. -/
theorem hasWW_collapseGo : ∀ (l : List Char) (b : Bool), hasWW (collapseGo b l) = false := by
  intro l
  induction l with
  | nil => intro b; cases b <;> rfl
  | cons y ys ih =>
    intro b
    by_cases hy : pyIsSpace y
    · cases b with
      | true => simpa [collapseGo, hy] using ih true
      | false =>
        simp only [collapseGo, hy, if_true]
        cases hw : collapseGo true ys with
        | nil => rfl
        | cons h w =>
          simp only [hasWW, adjPair, Bool.or_eq_false_iff]
          constructor
          · have := headTrue_collapseGo ys (h := h) (by simp [hw])
            simp [this]
          · simpa [hasWW, hw] using ih true
    · simp only [collapseGo, hy, if_false]
      cases hw : collapseGo false ys with
      | nil => rfl
      | cons h w =>
        simp only [hasWW, adjPair, Bool.or_eq_false_iff]
        constructor
        · simp [hy]
        · simpa [hasWW, hw] using ih false

theorem head_dropWhile (p : Char → Bool) :
    ∀ (l : List Char) {h : Char}, (l.dropWhile p).head? = some h → p h = false := by
  intro l
  induction l with
  | nil => intro h hh; simp [List.dropWhile] at hh
  | cons y ys ih =>
    intro h hh
    by_cases hy : p y
    · exact ih (by simpa [List.dropWhile, hy] using hh)
    · have : y = h := by simpa [List.dropWhile, hy] using hh
      rw [← this]
      simpa using hy

theorem dropWhile_eq_self_of_head {p : Char → Bool} {l : List Char}
    (h : ∀ x, l.head? = some x → p x = false) : l.dropWhile p = l := by
  cases l with
  | nil => rfl
  | cons y ys => simp [List.dropWhile, h y rfl]

theorem removeCC_zero (c : Char) (l : List Char) : removeCC c 0 l = l := by
  cases l with
  | nil => rfl
  | cons x xs => cases xs <;> rfl

theorem removeC_zero (c : Char) (l : List Char) : removeC c 0 l = l := by
  cases l <;> rfl

theorem countCC_eq_zero {c : Char} {l : List Char} (h : hasCC c l = false) :
    countCC c l = 0 := by
  induction l with
  | nil => rfl
  | cons x xs ih =>
    cases xs with
    | nil => rfl
    | cons y rest =>
      have hp : ¬ (x = c ∧ y = c) := by
        intro hxy
        have : hasCC c (x :: y :: rest) = true := by
          simp [hasCC, adjPair, hxy.1, hxy.2]
        rw [this] at h
        exact Bool.noConfusion h
      have ht : hasCC c (y :: rest) = false := adjPair_tail h
      simp only [countCC, if_neg hp]
      exact ih ht

theorem sub2_id {c : Char} {l : List Char} (h : hasCC c l = false) : sub2 c l = l := by
  unfold sub2
  rw [countCC_eq_zero h]
  exact removeCC_zero c l

theorem sub1_id {c : Char} {l : List Char} (h : c ∉ l) : sub1 c l = l := by
  unfold sub1
  rw [List.count_eq_zero.mpr h]
  exact removeC_zero c l

/-- `pyStrip` is a prefix of the front-stripped list. -/
theorem pyStrip_isPrefix (l : List Char) : pyStrip l <+: l.dropWhile pyIsSpace := by
  have h2 : (l.dropWhile pyIsSpace).reverse.dropWhile pyIsSpace <:+
      (l.dropWhile pyIsSpace).reverse := List.dropWhile_suffix pyIsSpace
  have h4 := (@List.reverse_suffix Char
    ((l.dropWhile pyIsSpace).reverse.dropWhile pyIsSpace).reverse (l.dropWhile pyIsSpace)).mp
  apply h4
  simpa using h2

theorem pyStrip_idem (l : List Char) : pyStrip (pyStrip l) = pyStrip l := by
  have hfront : (pyStrip l).dropWhile pyIsSpace = pyStrip l := by
    apply dropWhile_eq_self_of_head
    intro x hx
    have hne : pyStrip l ≠ [] := by
      intro he; rw [he] at hx; simp at hx
    have hpre := pyStrip_isPrefix l
    have hane : l.dropWhile pyIsSpace ≠ [] := by
      intro he
      rw [he] at hpre
      exact hne (List.prefix_nil.mp hpre)
    have hheads := hpre.head hne
    have hx2 : (l.dropWhile pyIsSpace).head? = some x := by
      rw [List.head?_eq_head hane, ← hheads, ← List.head?_eq_head hne]
      exact hx
    exact head_dropWhile pyIsSpace l hx2
  show (((pyStrip l).dropWhile pyIsSpace).reverse.dropWhile pyIsSpace).reverse = pyStrip l
  rw [hfront]
  have hrev : (pyStrip l).reverse = (l.dropWhile pyIsSpace).reverse.dropWhile pyIsSpace := by
    show (((l.dropWhile pyIsSpace).reverse.dropWhile pyIsSpace).reverse).reverse = _
    rw [List.reverse_reverse]
  have hb : (pyStrip l).reverse.dropWhile pyIsSpace = (pyStrip l).reverse := by
    rw [hrev, List.dropWhile_idempotent]
  rw [hb, List.reverse_reverse]

theorem collapseGo_true_eq_false {l : List Char}
    (h : ∀ x, l.head? = some x → pyIsSpace x = false) :
    collapseGo true l = collapseGo false l := by
  cases l with
  | nil => rfl
  | cons y ys => simp [collapseGo, h y rfl]

/-- On a list whose whitespace is exactly single plain spaces, the whitespace
collapser is the identity. -/
theorem collapseWs_id {l : List Char} (hall : ∀ x ∈ l, pyIsSpace x → x = ' ')
    (hww : hasWW l = false) : collapseWs l = l := by
  show collapseGo false l = l
  induction l with
  | nil => rfl
  | cons y ys ih =>
    have hall2 : ∀ x ∈ ys, pyIsSpace x → x = ' ' :=
      fun x hx => hall x (List.mem_cons_of_mem _ hx)
    have hww2 : hasWW ys = false := adjPair_tail hww
    by_cases hy : pyIsSpace y
    · have hy1 : y = ' ' := hall y (List.mem_cons_self _ _) hy
      have hhead : ∀ x, ys.head? = some x → pyIsSpace x = false := by
        intro x hx
        cases ys with
        | nil => simp at hx
        | cons z zs =>
          have hzx : z = x := by simpa using hx
          by_contra hxs
          have hxs2 : pyIsSpace x = true := by
            revert hxs; cases pyIsSpace x <;> simp
          have hbad : hasWW (y :: z :: zs) = true := by
            simp [hasWW, adjPair, hy, hzx, hxs2]
          rw [hbad] at hww
          exact Bool.noConfusion hww
      simp only [collapseGo, hy, if_true]
      rw [collapseGo_true_eq_false hhead, ih hall2 hww2, hy1]
      simp
    · simp only [collapseGo, hy, if_neg, Bool.false_eq_true, if_false]
      rw [ih hall2 hww2]

/-- The composition strip-collapse-strip is idempotent. -/
theorem stripCollapseStrip_idem (m : List Char) :
    pyStrip (collapseWs (pyStrip (collapseWs (pyStrip m)))) =
      pyStrip (collapseWs (pyStrip m)) := by
  set w := collapseWs (pyStrip m) with hw
  have hallw : ∀ x ∈ w, pyIsSpace x → x = ' ' := by
    intro x hx hsp
    exact collapseGo_spaces false (pyStrip m) x hx hsp
  have hwww : hasWW w = false := hasWW_collapseGo (pyStrip m) false
  have hallc : ∀ x ∈ pyStrip w, pyIsSpace x → x = ' ' := by
    intro x hx hsp
    exact hallw x (mem_of_isInfix (pyStrip_isInfix w) hx) hsp
  have hwwc : hasWW (pyStrip w) = false :=
    adjPair_eq_false_of_isInfix hwww (pyStrip_isInfix w)
  rw [collapseWs_id hallc hwwc, pyStrip_idem]

/-- Core idempotence fact: on inputs with no backquote, no doubled underscore
and no doubled asterisk, the markup substitutions of `_clean_md` are the
identity and cleaning is idempotent. -/
theorem cleanMd_idem_of {d : List Char} (h1 : btick ∉ d) (h2 : hasCC '_' d = false)
    (h3 : hasCC '*' d = false) : cleanMd (cleanMd d) = cleanMd d := by
  have hP := pyStrip_isInfix d
  have h1a : btick ∉ pyStrip d := fun hx => h1 (mem_of_isInfix hP hx)
  have h2a : hasCC '_' (pyStrip d) = false := adjPair_eq_false_of_isInfix h2 hP
  have h3a : hasCC '*' (pyStrip d) = false := adjPair_eq_false_of_isInfix h3 hP
  have hstep1 : cleanMd d = pyStrip (collapseWs (pyStrip d)) := by
    unfold cleanMd
    rw [sub2_id h3a, sub2_id h2a, sub1_id h1a]
  have h3w : hasCC '*' (collapseWs (pyStrip d)) = false :=
    hasCC_collapseGo (by decide) (pyStrip d) false h3a
  have h2w : hasCC '_' (collapseWs (pyStrip d)) = false :=
    hasCC_collapseGo (by decide) (pyStrip d) false h2a
  have h1w : btick ∉ collapseWs (pyStrip d) := by
    intro hx
    rcases mem_collapseGo false (pyStrip d) hx with h | h
    · exact absurd h (by decide)
    · exact h1a h
  have hPc := pyStrip_isInfix (collapseWs (pyStrip d))
  have h1c : btick ∉ pyStrip (collapseWs (pyStrip d)) := fun hx => h1w (mem_of_isInfix hPc hx)
  have h2c : hasCC '_' (pyStrip (collapseWs (pyStrip d))) = false :=
    adjPair_eq_false_of_isInfix h2w hPc
  have h3c : hasCC '*' (pyStrip (collapseWs (pyStrip d))) = false :=
    adjPair_eq_false_of_isInfix h3w hPc
  rw [hstep1]
  show cleanMd (pyStrip (collapseWs (pyStrip d))) = _
  unfold cleanMd
  rw [pyStrip_idem]
  rw [sub2_id h3c, sub2_id h2c, sub1_id h1c]
  exact stripCollapseStrip_idem d

/-! ## Facts about the paragraph splitter, towards claims C7 and C1 -/

/-- The `i`-th window starts at character `i * step` and spans `size`
characters. -/
theorem windowsAux_get (size step : Nat) (hstep : 0 < step) :
    ∀ (i fuel : Nat) (t : List Char), t.length ≤ fuel →
      (windowsAux size step fuel t).get? i =
        if t.drop (i * step) = [] then none else some ((t.drop (i * step)).take size) := by
  intro i
  induction i with
  | zero =>
    intro fuel t hle
    cases fuel with
    | zero =>
      have ht : t = [] := List.length_eq_zero.mp (Nat.le_zero.mp hle)
      subst ht
      simp [windowsAux]
    | succ fuel =>
      cases t with
      | nil => simp [windowsAux]
      | cons x xs =>
        simp [windowsAux]
  | succ i ih =>
    intro fuel t hle
    cases fuel with
    | zero =>
      have ht : t = [] := List.length_eq_zero.mp (Nat.le_zero.mp hle)
      subst ht
      simp [windowsAux]
    | succ fuel =>
      cases t with
      | nil => simp [windowsAux]
      | cons x xs =>
        have hlen : (List.drop step (x :: xs)).length ≤ fuel := by
          have h1 : (x :: xs).length ≤ fuel + 1 := hle
          have h2 : (List.drop step (x :: xs)).length = (x :: xs).length - step := by
            simp
          omega
        have hrec := ih fuel (List.drop step (x :: xs)) hlen
        have hdd : List.drop (i * step) (List.drop step (x :: xs)) =
            List.drop ((i + 1) * step) (x :: xs) := by
          rw [List.drop_drop]
          congr 1
          ring
        simp only [windowsAux, List.isEmpty_cons, if_neg, Bool.false_eq_true, if_false,
          List.get?_cons_succ]
        rw [hrec, hdd]

/-- Consecutive windows overlap in exactly the positional boundary region:
the part of a window after its first `size - overlap` characters is the
`overlap`-character front of the next window. -/
theorem windows_consecutive {size overlap : Nat} {t : List Char} {i : Nat}
    {c1 c2 : List Char} (hov : overlap < size)
    (h1 : (windows size overlap t).get? i = some c1)
    (h2 : (windows size overlap t).get? (i + 1) = some c2) :
    c1.drop (size - overlap) = c2.take overlap := by
  have hstep : 0 < size - overlap := by omega
  have hc1 := windowsAux_get size (size - overlap) hstep i t.length t le_rfl
  have hc2 := windowsAux_get size (size - overlap) hstep (i + 1) t.length t le_rfl
  unfold windows at h1 h2
  rw [hc1] at h1
  rw [hc2] at h2
  by_cases he1 : t.drop (i * (size - overlap)) = []
  · rw [if_pos he1] at h1; exact absurd h1 (by simp)
  by_cases he2 : t.drop ((i + 1) * (size - overlap)) = []
  · rw [if_pos he2] at h2; exact absurd h2 (by simp)
  rw [if_neg he1] at h1
  rw [if_neg he2] at h2
  have hc1e : c1 = (t.drop (i * (size - overlap))).take size := by
    exact (Option.some_inj.mp h1).symm
  have hc2e : c2 = (t.drop ((i + 1) * (size - overlap))).take size := by
    exact (Option.some_inj.mp h2).symm
  rw [hc1e, hc2e]
  rw [List.drop_take, List.drop_drop, List.take_take]
  have harith1 : size - (size - overlap) = overlap := by omega
  have harith2 : i * (size - overlap) + (size - overlap) = (i + 1) * (size - overlap) := by ring
  have harith3 : overlap ⊓ size = overlap := Nat.min_eq_left (Nat.le_of_lt hov)
  rw [harith1, harith2, harith3]

/-- Every chunk `_process_text_chunk` emits carries the classification of the
cleaned joined paragraph, the page number of the buffer and its section
path. -/
theorem processTextChunk_fields (chunkSize overlap : Nat) (buffer : List String)
    (sectionPath : String) (pageNumber : Option Int) :
    ∀ c ∈ processTextChunk chunkSize overlap buffer sectionPath pageNumber,
      c.type = classifyTextBlock (cleanMdStr (pyStripStr (String.intercalate " " buffer))) ∧
      c.pageNumber = pageNumber ∧ c.sectionPath = sectionPath := by
  intro c hc
  unfold processTextChunk at hc
  by_cases hempty : pyStripStr (String.intercalate " " buffer) = ""
  · rw [if_pos hempty] at hc
    simp at hc
  · rw [if_neg hempty] at hc
    by_cases hlarge : chunkSize < (cleanMdStr (pyStripStr (String.intercalate " " buffer))).length
    · rw [if_pos hlarge] at hc
      rcases List.mem_filterMap.mp hc with ⟨w, _, hw⟩
      by_cases hwe : pyStripStr w = ""
      · simp only [hwe, if_pos] at hw
        exact absurd hw (by simp)
      · simp only [hwe, if_neg] at hw
        have := Option.some_inj.mp hw
        rw [← this]
        exact ⟨rfl, rfl, rfl⟩
    · rw [if_neg hlarge] at hc
      have := List.mem_singleton.mp hc
      rw [this]
      exact ⟨rfl, rfl, rfl⟩

/-! ## Claim-side definitions for C1 and C7 -/

/-- The per-row conversion exactly as claim C1 words it: every data row whose
cell count equals the header count produces one `table_row` chunk whose
content is all the `"<header>: <cell>"` pairs joined by `". "` (no pair is
filtered out and an empty join is not dropped). -/
def claimedRowChunk (headers : List String) (pref sectionPath : String)
    (pageNumber : Option Int) (line : String) : Option Chunk :=
  let line := pyStripStr line
  if ("|--" : String).data.isPrefixOf line.data ∨ line = "" then none
  else
    let cells := (splitPipe (pyStripChars ['|', ' ', '\n'] line.data)).map
      (fun c => cleanMdStr (pyStripStr ⟨c⟩))
    if cells.length ≠ headers.length then none
    else
      let joined := String.intercalate ". "
        ((headers.zip cells).map (fun hc => hc.1 ++ ": " ++ hc.2))
      some ⟨if pref ≠ "" then pyStripStr (pref ++ "\n" ++ joined) else joined,
            "table_row", pageNumber, sectionPath⟩

/-- The per-row conversion as claim C1 must be amended: only pairs whose
cleaned header and cleaned cell are both non-empty are kept, and a row whose
joined content is empty produces no chunk. -/
def amendedRowChunk (headers : List String) (pref sectionPath : String)
    (pageNumber : Option Int) (line : String) : Option Chunk :=
  let line := pyStripStr line
  if ("|--" : String).data.isPrefixOf line.data ∨ line = "" then none
  else
    let cells := (splitPipe (pyStripChars ['|', ' ', '\n'] line.data)).map
      (fun c => cleanMdStr (pyStripStr ⟨c⟩))
    if cells.length ≠ headers.length then none
    else
      let kept := (headers.zip cells).filter (fun hc => hc.1 ≠ "" ∧ hc.2 ≠ "")
      let joined := String.intercalate ". " (kept.map (fun hc => hc.1 ++ ": " ++ hc.2))
      if joined = "" then none
      else
        some ⟨if pref ≠ "" then pyStripStr (pref ++ "\n" ++ cleanMdStr joined)
              else cleanMdStr joined,
              "table_row", pageNumber, sectionPath⟩

theorem rowChunk_eq_amended (headers : List String) (pref sectionPath : String)
    (pageNumber : Option Int) (line : String) :
    rowChunk headers pref sectionPath pageNumber line =
      amendedRowChunk headers pref sectionPath pageNumber line := by
  have hpm : ∀ (l : List (String × String)),
      l.filterMap (fun hc => if hc.1 ≠ "" ∧ hc.2 ≠ "" then some (hc.1 ++ ": " ++ hc.2) else none) =
      (l.filter (fun hc => hc.1 ≠ "" ∧ hc.2 ≠ "")).map (fun hc => hc.1 ++ ": " ++ hc.2) := by
    intro l
    induction l with
    | nil => rfl
    | cons x xs ih => by_cases hx : x.1 ≠ "" ∧ x.2 ≠ "" <;> simp [hx, ih]
  unfold rowChunk amendedRowChunk
  simp only [hpm]

/-- Boundary-sharing of exactly `k` characters between consecutive windows:
the final `k` characters of the first window are the first `k` characters of
the second (in particular both windows have at least `k` characters). -/
def sharesExactly (c1 c2 : List Char) (k : Nat) : Prop :=
  (c1.drop (c1.length - k)).length = k ∧ c1.drop (c1.length - k) = c2.take k

/-! ## Claims C1, C6, C7 -/

/-- **C1 (counterexample).**  The claim says every count-matching data row
yields one chunk whose content joins *all* `"<header>: <cell>"` pairs.  On
the table `|a|b|c|` / `|x||y|` the middle cell is empty: the code filters the
pair `b: ` out and emits `"a: x. c: y"`, not the claimed `"a: x. b: . c: y"`. -/
theorem C1_counterexample :
    processTableChunk ["|a|b|c|", "|x||y|"] "" none none ≠
      ["|x||y|"].filterMap (claimedRowChunk (headersOf "|a|b|c|")
        (buildPrefixStr "" none none) "" none) ∧
    (processTableChunk ["|a|b|c|", "|x||y|"] "" none none).map Chunk.content =
      ["a: x. c: y"] ∧
    (["|x||y|"].filterMap (claimedRowChunk (headersOf "|a|b|c|")
      (buildPrefixStr "" none none) "" none)).map Chunk.content =
      ["a: x. b: . c: y"] := by
  refine ⟨?_, by decide, by decide⟩
  decide

/-- **C1 (amended).**  When the chunker processes a contiguous block of
pipe-delimited table lines, the first line gives the column headers,
separator and empty rows are skipped, every remaining data row whose cell
count equals the header count and whose `"<header>: <cell>"` pairs with both
parts non-empty have a non-empty join produces exactly one `table_row` chunk
containing those pairs joined by `". "`; rows whose cell count differs from
the header count (and rows whose join is empty) are dropped silently, no
error being possible.  In particular the table `|Name|Age|` (with a separator
row) and data row `|Alice|30|` produces exactly one `table_row` chunk with
content `"Name: Alice. Age: 30"`. -/
theorem C1_table_row_chunks :
    (∀ (headerLine : String) (rest : List String) (sectionPath : String)
        (tableTitle : Option String) (pageNumber : Option Int),
      processTableChunk (headerLine :: rest) sectionPath tableTitle pageNumber =
        rest.filterMap (amendedRowChunk (headersOf headerLine)
          (buildPrefixStr sectionPath tableTitle pageNumber) sectionPath pageNumber)) ∧
    processTableChunk ["|Name|Age|", "|---|---|", "|Alice|30|"] "" none none =
      [⟨"Name: Alice. Age: 30", "table_row", none, ""⟩] := by
  constructor
  · intro headerLine rest sp tt pn
    unfold processTableChunk
    exact List.filterMap_congr (fun a _ => rowChunk_eq_amended _ _ _ _ a)
  · decide

/-- **C6 (counterexample).**  Cleaning is not idempotent: backquote removal
can create a fresh `**...**` pair that only a second clean removes. -/
theorem C6_counterexample :
    cleanMdStr "*`*`x*`*`" = "**x**" ∧ cleanMdStr "**x**" = "x" ∧
    cleanMdStr (cleanMdStr "*`*`x*`*`") ≠ cleanMdStr "*`*`x*`*`" := by
  refine ⟨by decide, by decide, ?_⟩
  decide

/-- **C6 (amended).**  Cleaning is idempotent on every input containing no
backquote, no doubled underscore and no doubled asterisk (on such inputs the
three markup substitutions are the identity, and strip-collapse-strip is
idempotent); in general a second clean can differ, because the backquote and
doubled-underscore substitutions can create new doubled-asterisk markers. -/
theorem C6_clean_idempotent (s : String) (h1 : btick ∉ s.data)
    (h2 : hasCC '_' s.data = false) (h3 : hasCC '*' s.data = false) :
    cleanMdStr (cleanMdStr s) = cleanMdStr s := by
  exact congrArg String.mk (cleanMd_idem_of h1 h2 h3)

/-- Witness for C6: a concrete marker-free input with collapsible whitespace. -/
theorem C6_clean_idempotent_witness :
    btick ∉ ("a  b " : String).data ∧ hasCC '_' ("a  b " : String).data = false ∧
    hasCC '*' ("a  b " : String).data = false ∧
    cleanMdStr (cleanMdStr "a  b ") = cleanMdStr "a  b " :=
  ⟨by decide, by decide, by decide,
    C6_clean_idempotent "a  b " (by decide) (by decide) (by decide)⟩

/-- **C7 (counterexample).**  With window size 8 and overlap 6, the
10-character paragraph `0123456789` produces windows whose tail pair
(`"6789"`, `"89"`) cannot share exactly 6 boundary characters — the later
window has only 2. -/
theorem C7_counterexample :
    (windows 8 6 "0123456789".data).get? 3 = some "6789".data ∧
    (windows 8 6 "0123456789".data).get? 4 = some "89".data ∧
    ¬ sharesExactly "6789".data "89".data 6 := by
  refine ⟨by decide, by decide, ?_⟩
  intro h
  exact absurd h.1 (by decide)

/-- **C7 (amended).**  For a paragraph split into windows (overlap strictly
smaller than window size), every pair of consecutive windows shares exactly
the positional boundary region: the part of the earlier window after its
first `size - overlap` characters equals the `overlap`-character front of the
later window (of length `min overlap |later|`, which is `overlap` except for
the shortened windows at the very end of the paragraph).  Every emitted
sub-chunk carries the same type, page number and section path. -/
theorem C7_window_overlap :
    (∀ (size overlap : Nat) (t : List Char) (i : Nat) (c1 c2 : List Char),
        overlap < size →
        (windows size overlap t).get? i = some c1 →
        (windows size overlap t).get? (i + 1) = some c2 →
        c1.drop (size - overlap) = c2.take overlap ∧
          (c2.take overlap).length = min overlap c2.length) ∧
    (∀ (chunkSize overlap : Nat) (buffer : List String) (sectionPath : String)
        (pageNumber : Option Int),
      ∀ c ∈ processTextChunk chunkSize overlap buffer sectionPath pageNumber,
        c.type = classifyTextBlock (cleanMdStr (pyStripStr (String.intercalate " " buffer))) ∧
        c.pageNumber = pageNumber ∧ c.sectionPath = sectionPath) := by
  constructor
  · intro size overlap t i c1 c2 hov h1 h2
    exact ⟨windows_consecutive hov h1 h2, by simp [List.length_take]⟩
  · exact processTextChunk_fields

/-- Witness for C7: the first two windows of the counterexample paragraph
share exactly the 6 boundary characters `234567`. -/
theorem C7_window_overlap_witness :
    ("01234567".data).drop (8 - 6) = ("23456789".data).take 6 ∧
      (("23456789".data).take 6).length = min 6 ("23456789".data).length :=
  C7_window_overlap.1 8 6 "0123456789".data 0 "01234567".data "23456789".data
    (by decide) (by decide) (by decide)

/-! ## Tokenization (`_tokenize`, `_tokenize_list`, `_STOPWORDS`, `_jaccard`)
from `app/services/vector_service.py` -/

/-- The fixed stop-word list `_STOPWORDS`. -/
def stopwords : List String :=
  ["a", "an", "and", "are", "as", "at", "be", "by", "for", "from", "has", "have",
   "in", "is", "it", "of", "on", "or", "that", "the", "to", "was", "were", "with",
   "what", "which", "who", "whom", "when", "where", "why", "how"]

/-- The run-accumulating scan shared by `_tokenize` and `_tokenize_list`:
maximal alphanumeric runs of the lowered text. -/
def tokAux (word : List Char) : List Char → List String
  | [] => if word.isEmpty then [] else [⟨word⟩]
  | c :: cs =>
    if c.isAlphanum then tokAux (word ++ [c]) cs
    else if word.isEmpty then tokAux [] cs else (⟨word⟩ : String) :: tokAux [] cs

/-- Alphanumeric tokens of the lowered text, in order, duplicates kept. -/
def pyRawTokens (s : String) : List String := tokAux [] (pyLower s).data

/-- `_tokenize_list`: raw tokens with empty tokens and stop words removed,
duplicates kept (used for BM25 term frequencies). -/
def tokenizeList (s : String) : List String :=
  (pyRawTokens s).filter (fun t => t ≠ "" ∧ t ∉ stopwords)

/-- First-occurrence deduplication (the order-irrelevant Python `set` of
tokens is modelled as a duplicate-free list). -/
def dedupGo (seen : List String) : List String → List String
  | [] => []
  | x :: xs => if x ∈ seen then dedupGo seen xs else x :: dedupGo (x :: seen) xs

def pyDedup (l : List String) : List String := dedupGo [] l

/-- `_tokenize`: the token set (duplicate-free) used for Jaccard similarity
and keyword overlap. -/
def tokenize (s : String) : List String := pyDedup (tokenizeList s)

/-- `_jaccard` on token sets (duplicate-free lists): intersection size over
union size, `0` for an empty side. -/
def jaccard (a b : List String) : ℚ :=
  if a = [] ∨ b = [] then 0
  else
    let inter := (a.filter (fun t => t ∈ b)).length
    let union := (a ++ b.filter (fun t => t ∉ a)).length
    if union = 0 then 0 else (inter : ℚ) / (union : ℚ)

/-! ## Candidates and scoring (`app/services/vector_service.py`)

Scores are exact rationals; the stored metadata fields are the ones the
pipeline reads.  Keys a Python dict may lack are `Option` fields. -/

structure Metadata where
  filename : String := ""
  docId : String := ""
  chunkIndex : String := ""
  sourceText : Option String := none
  sourceTextPreview : Option String := none
  chunkContentType : Option String := none
  pageNumber : Option String := none
  sectionPath : Option String := none
deriving DecidableEq, Repr

structure Candidate where
  key : Option String := none
  distance : Option ℚ := none
  score : Option ℚ := none
  metadata : Metadata := {}
  vec : Option ℚ := none
  lex : Option ℚ := none
  hybrid : Option ℚ := none
  rerankScore : Option ℚ := none
  mergeScore : Option ℚ := none
deriving DecidableEq, Repr

/-- `_base_relevance`: `1/(1+max(0,distance))` when a distance is present,
else the raw similarity score (default `0`). -/
def baseRelevance (r : Candidate) : ℚ :=
  match r.distance with
  | some d => 1 / (1 + max 0 d)
  | none => r.score.getD 0

/-- `meta.get("source_text", meta.get("source_text_preview", ""))`. -/
def contentOf (c : Candidate) : String :=
  c.metadata.sourceText.getD (c.metadata.sourceTextPreview.getD "")

/-- Python's stable `list.sort(key=f, reverse=True)`: a stable descending
insertion sort (ties keep their original relative order, as in Timsort). -/
def sortDescBy {α : Type} (f : α → ℚ) (l : List α) : List α :=
  List.insertionSort (fun a b => f b ≤ f a) l

/-- Python `min` of a non-empty float list (the `[]` case is never used). -/
def minQ : List ℚ → ℚ
  | [] => 0
  | x :: xs => xs.foldl min x

/-- Python `max` of a non-empty float list (the `[]` case is never used). -/
def maxQ : List ℚ → ℚ
  | [] => 0
  | x :: xs => xs.foldl max x

/-- The `norm_sim` min-max normalization of step 2 of `query_vectors_hybrid`
applied across the batch: ties normalize to `1.0`. -/
def normSimAll (sims : List ℚ) : List ℚ :=
  sims.map (fun s => if maxQ sims = minQ sims then 1 else (s - minQ sims) / (maxQ sims - minQ sims))

/-- The `norm_lex` min-max normalization of step 3: ties normalize to `1.0`
for positive raw scores and `0.0` otherwise. -/
def normLexAll (raw : List ℚ) : List ℚ :=
  raw.map (fun x =>
    if maxQ raw = minQ raw then (if 0 < x then 1 else 0)
    else (x - minQ raw) / (maxQ raw - minQ raw))

/-- The in-batch BM25-lite scorer (`bm25_scores`), with `math.log` passed in
as an explicit function (it is transcendental; every theorem below holds for
an arbitrary interpretation). -/
def bm25 (log : ℚ → ℚ) (qTokens : List String) (docTokensList : List (List String)) :
    List ℚ :=
  if qTokens = [] then docTokensList.map (fun _ => 0)
  else if docTokensList.length = 0 then []
  else
    let n := docTokensList.length
    let avgdl : ℚ := ((docTokensList.map List.length).sum : ℚ) / ((max 1 n : ℕ) : ℚ)
    let k1 : ℚ := 6/5
    let b : ℚ := 3/4
    docTokensList.map (fun toks =>
      if toks = [] then 0
      else
        let denomNorm := k1 * (1 - b + b * ((toks.length : ℚ) / max (1/1000000) avgdl))
        qTokens.foldl (fun sc qt =>
          let f := toks.count qt
          if f = 0 then sc
          else
            let df := docTokensList.countP (fun ts => qt ∈ ts)
            let idf := log (1 + ((n : ℚ) - (df : ℚ) + 1/2) / ((df : ℚ) + 1/2))
            sc + idf * ((f : ℚ) * (k1 + 1)) / ((f : ℚ) + denomNorm)) 0)

/-- Attach the normalized scores: `_vec`, `_lex`,
`_hybrid = alpha*_vec + (1-alpha)*_lex` and the initial
`rerank_score = _hybrid` (the second branch mirrors the defensive
`idx < len(lex_norm)` check; the lists always have equal length here). -/
def attachScores (alpha : ℚ) : List Candidate → List ℚ → List ℚ → List Candidate
  | c :: cs, v :: vs, lx :: ls =>
    { c with vec := some v, lex := some lx,
             hybrid := some (alpha * v + (1 - alpha) * lx),
             rerankScore := some (alpha * v + (1 - alpha) * lx) } ::
      attachScores alpha cs vs ls
  | c :: cs, v :: vs, [] =>
    { c with vec := some v, lex := some 0,
             hybrid := some (alpha * v + (1 - alpha) * 0),
             rerankScore := some (alpha * v + (1 - alpha) * 0) } ::
      attachScores alpha cs vs []
  | _, _, _ => []

/-- `max_sim` of the MMR loop: largest Jaccard similarity between the
candidate's token set and an already selected item's token set. -/
def maxSimTo (cand : Candidate) (selected : List Candidate) : ℚ :=
  selected.foldl (fun m s =>
    let j := jaccard (tokenize (contentOf cand)) (tokenize (contentOf s))
    if m < j then j else m) 0

/-- The MMR objective of one candidate given the current selection. -/
def mmrOf (lam : ℚ) (selected : List Candidate) (cand : Candidate) : ℚ :=
  if selected = [] then cand.hybrid.getD 0
  else lam * cand.hybrid.getD 0 - (1 - lam) * maxSimTo cand selected

/-- The inner scan of the MMR loop: first strict maximizer of the MMR
objective over the pool, starting from `best_score = -1`. -/
def pickBest (lam : ℚ) (selected pool : List Candidate) : Option Candidate :=
  (pool.foldl (fun best cand =>
      if best.1 < mmrOf lam selected cand then (mmrOf lam selected cand, some cand) else best)
    ((-1 : ℚ), (none : Option Candidate))).2

/-- The MMR selection loop (`while remaining and len(selected) < top_k`),
with explicit fuel: every iteration removes the picked element from
`remaining`, so `|remaining|` iterations suffice. -/
def mmrLoop (lam : ℚ) (topK candK : ℕ) : ℕ → List Candidate → List Candidate → List Candidate
  | 0, _, selected => selected
  | fuel + 1, remaining, selected =>
    if remaining = [] ∨ ¬ selected.length < topK then selected
    else
      match pickBest lam selected (remaining.take candK) with
      | none => selected
      | some best => mmrLoop lam topK candK fuel (remaining.erase best) (selected ++ [best])

/-- Step 4 and the final ordering of `query_vectors_hybrid`: sort by hybrid
score, greedily select with MMR, sort the selection by hybrid score. -/
def mmrSelect (lam : ℚ) (topK candK : ℕ) (cands : List Candidate) : List Candidate :=
  sortDescBy (fun c => c.hybrid.getD 0)
    (mmrLoop lam topK candK cands.length (sortDescBy (fun c => c.hybrid.getD 0) cands) [])

/-- Steps 2-4 of `query_vectors_hybrid` on an already retrieved, already
scope-filtered, non-empty candidate batch. -/
def hybridRank (log : ℚ → ℚ) (queryText : String) (alpha lam : ℚ) (topK candK : ℕ)
    (cands : List Candidate) : List Candidate :=
  let simN := normSimAll (cands.map baseRelevance)
  let lexRaw := bm25 log (tokenizeList queryText) (cands.map (fun c => tokenizeList (contentOf c)))
  let lexN := if lexRaw = [] then cands.map (fun _ => (0 : ℚ)) else normLexAll lexRaw
  mmrSelect lam topK candK (attachScores alpha cands simN lexN)

/-- The document-scope filter of `query_vectors_hybrid`: keep candidates
whose metadata document id is allowed, or whose key has an allowed
`"<doc_id>-chunk"` key prefix. -/
def scopeKeep (allowed : List String) (c : Candidate) : Bool :=
  (c.metadata.docId ≠ "" && allowed.contains c.metadata.docId) ||
  (c.key.getD "" ≠ "" && allowed.any (fun d => (d ++ "-chunk").data.isPrefixOf (c.key.getD "").data))

/-- Retrieval tuning settings with the defaults of `app/core/config.py`. -/
structure Settings where
  retrievalAlpha : ℚ := 3/4
  retrievalLambdaMmr : ℚ := 3/5
  retrievalCandidateK : ℕ := 60
  retrievalMaxTopK : ℕ := 30
  retrievalMaxCandidates : ℕ := 120
deriving Repr

/-- The external collaborators: the S3 vector store query (fallible), the
transcendental `math.log`, the embedding provider (order-preserving batch
embedding is modelled per item) and the answer generator. -/
structure Env where
  queryVectorsExt : List ℚ → ℕ → Except String (List Candidate)
  log : ℚ → ℚ
  embed : String → List ℚ
  generateAnswer : String → String → String

/-- `query_vectors`: clamp `top_k` into `[1, RETRIEVAL_MAX_CANDIDATES]` and
query the store (exceptions are logged and re-raised, i.e. propagated). -/
def queryVectors (env : Env) (S : Settings) (queryEmbedding : List ℚ) (topK : ℕ) :
    Except String (List Candidate) :=
  env.queryVectorsExt queryEmbedding (max 1 (min S.retrievalMaxCandidates topK))

/-- `query_vectors_hybrid`. -/
def queryVectorsHybrid (env : Env) (S : Settings) (queryText : String)
    (queryEmbedding : List ℚ) (topK candidateK : ℕ) (alpha lam : ℚ)
    (docIds : Option (List String)) : Except String (List Candidate) := do
  let candK := max 5 (min S.retrievalMaxCandidates candidateK)
  let candidates ← queryVectors env S queryEmbedding candK
  if candidates = [] then return []
  let candidates :=
    match docIds with
    | none => candidates
    | some ds =>
      if ds.filter (fun d => d ≠ "") = [] then candidates
      else candidates.filter (scopeKeep (ds.filter (fun d => d ≠ "")))
  if candidates = [] then return []
  return hybridRank env.log queryText alpha lam topK candK candidates

/-! ## Type-aware reranking (`rerank_results`) -/

def tableKeywords : List String := ["table", "data", "figure", "chart", "row", "column", "value"]

def definitionKeywords : List String := ["what is", "define", "definition", "meaning", "explain"]

def procedureKeywords : List String := ["how to", "steps", "process", "procedure", "method"]

def isTableQuery (ql : String) : Bool := tableKeywords.any (fun k => pyIn k ql)

def isDefinitionQuery (ql : String) : Bool := definitionKeywords.any (fun k => pyIn k ql)

def isProcedureQuery (ql : String) : Bool := procedureKeywords.any (fun k => pyIn k ql)

/-- The per-result body of `rerank_results`'s loop (`ql` is the lowered query
text): set `rerank_score = base * (1 + type_boost + table_boost + keyword_boost)`. -/
def rerankOne (ql : String) (r : Candidate) : Candidate :=
  let content := pyLower (r.metadata.sourceText.getD "")
  let contentType := r.metadata.chunkContentType.getD "general_content"
  let typeBoost : ℚ :=
    if isTableQuery ql ∧ contentType = "table_row" then 2/5
    else if isDefinitionQuery ql ∧ contentType = "definition" then 3/10
    else if isProcedureQuery ql ∧ contentType = "procedure" then 3/10
    else 0
  let tableBoost : ℚ :=
    if pyIn "[table start]" content ∨ pyIn "headers:" content ∨ pyIn "row:" content then
      (if isTableQuery ql then 1/5 else 1/10)
    else 0
  let common := (tokenize ql).filter (fun t => t ∈ tokenize content)
  let keywordBoost : ℚ :=
    if common ≠ [] then min (1/5) ((common.length : ℚ) * (1/20)) else 0
  { r with rerankScore := some (baseRelevance r * (1 + typeBoost + tableBoost + keywordBoost)) }

/-- `rerank_results`: score every result, then sort by `rerank_score`
descending. -/
def rerankResults (results : List Candidate) (queryText : String) : List Candidate :=
  sortDescBy (fun c => c.rerankScore.getD 0) (results.map (rerankOne (pyLower queryText)))

/-! Claim-side formulations of the rerank boosts, following the wording of
claims C5/C4 (to be compared with the `rerank_results` translation above). -/

/-- Claim wording: 0.4 for table intent on a `table_row` chunk, 0.3 for
definition (resp. procedure) intent on a `definition` (resp. `procedure`)
chunk, else 0. -/
def specTypeBoost (queryText : String) (c : Candidate) : ℚ :=
  let ql := pyLower queryText
  let ty := c.metadata.chunkContentType.getD "general_content"
  if isTableQuery ql ∧ ty = "table_row" then 2/5
  else if isDefinitionQuery ql ∧ ty = "definition" then 3/10
  else if isProcedureQuery ql ∧ ty = "procedure" then 3/10
  else 0

/-- The content contains one of the table-like markers. -/
def hasTableMarkers (c : Candidate) : Bool :=
  let content := pyLower (c.metadata.sourceText.getD "")
  pyIn "[table start]" content || pyIn "headers:" content || pyIn "row:" content

/-- Claim wording: a heuristic boost of at most 0.2, positive only when the
content contains table-like markers. -/
def specTableBoost (queryText : String) (c : Candidate) : ℚ :=
  let content := pyLower (c.metadata.sourceText.getD "")
  if pyIn "[table start]" content ∨ pyIn "headers:" content ∨ pyIn "row:" content then
    (if isTableQuery (pyLower queryText) then 1/5 else 1/10)
  else 0

/-- Number of shared non-stopword tokens between query and content. -/
def sharedKeywordCount (queryText : String) (c : Candidate) : ℕ :=
  ((tokenize (pyLower queryText)).filter
    (fun t => t ∈ tokenize (pyLower (c.metadata.sourceText.getD "")))).length

/-- Claim wording: 0.05 per shared non-stopword token, capped at 0.2. -/
def specKeywordBoost (queryText : String) (c : Candidate) : ℚ :=
  let common := (tokenize (pyLower queryText)).filter
    (fun t => t ∈ tokenize (pyLower (c.metadata.sourceText.getD "")))
  if common ≠ [] then min (1/5) ((common.length : ℚ) * (1/20)) else 0

/-- Claim wording of the full rerank score:
`base_relevance * (1 + type_boost + heuristic_table_boost + keyword_overlap_boost)`. -/
def rerankValue (queryText : String) (c : Candidate) : ℚ :=
  baseRelevance c *
    (1 + specTypeBoost queryText c + specTableBoost queryText c + specKeywordBoost queryText c)

/-! ## The retrieval orchestrator (`app/services/qa_service.py`) -/

/-- Python `s.replace(pat, '')` for a non-empty pattern (left-to-right,
non-overlapping), with explicit fuel. -/
def pyRemoveAllAux (pat : List Char) : ℕ → List Char → List Char
  | 0, l => l
  | _ + 1, [] => []
  | fuel + 1, x :: xs =>
    if pat ≠ [] ∧ pat.isPrefixOf (x :: xs) then
      pyRemoveAllAux pat fuel ((x :: xs).drop pat.length)
    else x :: pyRemoveAllAux pat fuel xs

def pyRemoveAll (s pat : String) : String := ⟨pyRemoveAllAux pat.data s.data.length s.data⟩

/-- `_variations` from `ask_with_context`: up to 4 deduplicated query
variants, the original first. -/
def variations (q : String) : List String :=
  let ql := pyLower q
  let vars1 := [q]
  let vars2 :=
    if ["table", "data", "chart", "figure"].any (fun w => pyIn w ql) then
      vars1 ++ ["table data about " ++ q, "tabular information regarding " ++ q]
    else vars1
  let vars3 :=
    if ["what is", "define"].any (fun w => pyIn w ql) then
      let base := pyStripStr (pyRemoveAll (pyRemoveAll q "what is") "define")
      if base ≠ "" then vars2 ++ ["definition of " ++ base, "meaning of " ++ base] else vars2
    else vars2
  (pyDedup vars3).take 4

/-- The dedup key of `ask_with_context`: the vector key if present and
non-empty, else `"<filename>|<chunk_index>"`. -/
def uniqueKeyOf (c : Candidate) : String :=
  if c.key.getD "" = "" then c.metadata.filename ++ "|" ++ c.metadata.chunkIndex
  else c.key.getD ""

/-- `res.get("rerank_score", res.get("score", 0.0))`. -/
def scoreOf (c : Candidate) : ℚ := c.rerankScore.getD (c.score.getD 0)

/-- Replace the value stored at the first occurrence of key `k` (Python dict
update keeps the insertion position). -/
def updateAssoc (k : String) (v : Candidate) :
    List (String × Candidate) → List (String × Candidate)
  | [] => []
  | (k2, v2) :: rest => if k2 = k then (k2, v) :: rest else (k2, v2) :: updateAssoc k v rest

/-- One iteration of the max-score-per-key dedup loop of `ask_with_context`:
insert the result under its key, or replace the stored entry when the new
score is strictly larger (Python dict update keeps the insertion position). -/
def mergeStep (acc : List (String × Candidate)) (r : Candidate) : List (String × Candidate) :=
  match acc.lookup (uniqueKeyOf r) with
  | none => acc ++ [(uniqueKeyOf r, { r with mergeScore := some (scoreOf r) })]
  | some old =>
    if old.mergeScore.getD 0 < scoreOf r then
      updateAssoc (uniqueKeyOf r) { r with mergeScore := some (scoreOf r) } acc
    else acc

/-- The max-score-per-key dedup loop of `ask_with_context`, on an insertion
ordered association list (the Python dict). -/
def mergeFold : List (String × Candidate) → List Candidate → List (String × Candidate)
  | acc, [] => acc
  | acc, r :: rest => mergeFold (mergeStep acc r) rest

/-- Merge result lists by chunk key, keeping for each key the entry with the
maximum score (first such entry on ties). -/
def mergeByKey (rs : List Candidate) : List Candidate := (mergeFold [] rs).map Prod.snd

/-- One labelled context block
`"[Source i - <filename>, Page <page>]\n<content>\n"`. -/
def sourceLabel (i : ℕ) (r : Candidate) : String :=
  "[Source " ++ toString (i + 1) ++ " - " ++ r.metadata.filename ++ ", Page " ++
    r.metadata.pageNumber.getD "" ++ "]\n" ++ contentOf r ++ "\n"

/-- Context assembly over at most the top 5 results. -/
def assembleContext (results : List Candidate) : String :=
  String.intercalate "\n" ((results.take 5).mapIdx sourceLabel)

/-- The dictionary `ask_with_context` returns: `answer` is present only on
the empty-retrieval path. -/
structure QAResponse where
  answer : Option String := none
  context : String := ""
  results : List Candidate := []
deriving DecidableEq, Repr

/-- One loop iteration of `ask_with_context`: hybrid retrieval for the
variant, then (optionally) type-aware reranking of its results. -/
def perVariant (env : Env) (S : Settings) (topK candidateK : ℕ) (useReranking : Bool)
    (docIds : Option (List String)) (v : String) : Except String (List Candidate) := do
  let rs ← queryVectorsHybrid env S v (env.embed v) topK candidateK
    S.retrievalAlpha S.retrievalLambdaMmr docIds
  return (if useReranking then rerankResults rs v else rs)

/-- The variant loop of `ask_with_context`, extending `all_results` in
order; an exception from any retrieval propagates. -/
def collectVariants (env : Env) (S : Settings) (topK candidateK : ℕ) (useReranking : Bool)
    (docIds : Option (List String)) : List String → Except String (List Candidate)
  | [] => .ok []
  | v :: rest => do
    let rs ← perVariant env S topK candidateK useReranking docIds v
    let more ← collectVariants env S topK candidateK useReranking docIds rest
    return rs ++ more

/-- `ask_with_context`. -/
def askWithContext (env : Env) (S : Settings) (query : String) (topK : ℕ)
    (useReranking : Bool) (docIds : Option (List String)) : Except String QAResponse := do
  let allResults ← collectVariants env S (min S.retrievalMaxTopK (max 5 topK))
    (min S.retrievalMaxCandidates (max S.retrievalCandidateK (topK * 3)))
    useReranking docIds (variations query)
  if allResults = [] then
    return { answer := some "Insufficient information", context := "", results := [] }
  else
    let results := (sortDescBy (fun r => r.mergeScore.getD 0) (mergeByKey allResults)).take topK
    return { answer := none, context := assembleContext results, results := results }

/-- `answer_with_context`. -/
def answerWithContext (env : Env) (S : Settings) (query : String) (topK : ℕ)
    (useReranking : Bool) (docIds : Option (List String)) : Except String String := do
  let ctx ← askWithContext env S query topK useReranking docIds
  if pyStripStr ctx.context = "" then return "Insufficient information"
  else return env.generateAnswer query ctx.context

/-! ## Facts about sorting and the MMR loop, towards claims C2, C3, C5, C10 -/

theorem sortDescBy_perm {α : Type} (f : α → ℚ) (l : List α) : (sortDescBy f l).Perm l :=
  List.perm_insertionSort _ l

theorem sortDescBy_sorted {α : Type} (f : α → ℚ) (l : List α) :
    List.Sorted (fun a b => f b ≤ f a) (sortDescBy f l) := by
  haveI : IsTotal α (fun a b => f b ≤ f a) := ⟨fun a b => le_total (f b) (f a)⟩
  haveI : IsTrans α (fun a b => f b ≤ f a) := ⟨fun a b c h1 h2 => le_trans h2 h1⟩
  exact List.sorted_insertionSort _ l

theorem nodup_of_subperm {α : Type} {l1 l2 : List α} (h : l1.Subperm l2) (h2 : l2.Nodup) :
    l1.Nodup := by
  rcases h with ⟨l, hpl, hsl⟩
  exact hpl.nodup_iff.mp (List.Nodup.sublist hsl h2)

theorem length_le_of_subperm {α : Type} {l1 l2 : List α} (h : l1.Subperm l2) :
    l1.length ≤ l2.length := by
  rcases h with ⟨l, hpl, hsl⟩
  rw [← hpl.length_eq]
  exact hsl.length_le

theorem subperm_map {α β : Type} (f : α → β) {l1 l2 : List α} (h : l1.Subperm l2) :
    (l1.map f).Subperm (l2.map f) := by
  rcases h with ⟨l, hpl, hsl⟩
  exact ⟨l.map f, hpl.map f, hsl.map f⟩

theorem pickBest_mem {lam : ℚ} {selected : List Candidate} {b : Candidate} :
    ∀ {pool : List Candidate}, pickBest lam selected pool = some b → b ∈ pool := by
  have key : ∀ (pool : List Candidate) (q : ℚ) (o : Option Candidate),
      (pool.foldl (fun best cand =>
        if best.1 < mmrOf lam selected cand then (mmrOf lam selected cand, some cand) else best)
        (q, o)).2 = some b → o = some b ∨ b ∈ pool := by
    intro pool
    induction pool with
    | nil => intro q o h; exact Or.inl h
    | cons x xs ih =>
      intro q o h
      simp only [List.foldl_cons] at h
      by_cases hx : q < mmrOf lam selected x
      · rw [if_pos hx] at h
        rcases ih _ _ h with h1 | h1
        · exact Or.inr (List.mem_cons.mpr (Or.inl (Option.some_inj.mp h1).symm))
        · exact Or.inr (List.mem_cons_of_mem _ h1)
      · rw [if_neg hx] at h
        rcases ih _ _ h with h1 | h1
        · exact Or.inl h1
        · exact Or.inr (List.mem_cons_of_mem _ h1)
  intro pool h
  rcases key pool (-1) none h with h1 | h1
  · exact Option.noConfusion h1
  · exact h1

theorem mmrLoop_subperm (lam : ℚ) (topK candK : ℕ) :
    ∀ (fuel : ℕ) (remaining selected : List Candidate),
      (mmrLoop lam topK candK fuel remaining selected).Subperm (selected ++ remaining) := by
  intro fuel
  induction fuel with
  | zero =>
    intro rem sel
    exact (List.sublist_append_left sel rem).subperm
  | succ fuel ih =>
    intro rem sel
    show (if rem = [] ∨ ¬ sel.length < topK then sel
      else match pickBest lam sel (rem.take candK) with
        | none => sel
        | some best => mmrLoop lam topK candK fuel (rem.erase best) (sel ++ [best])).Subperm _
    split
    · exact (List.sublist_append_left sel rem).subperm
    · cases hpick : pickBest lam sel (rem.take candK) with
      | none => exact (List.sublist_append_left sel rem).subperm
      | some best =>
        have hbest : best ∈ rem :=
          List.Sublist.mem (pickBest_mem hpick) (List.take_sublist candK rem)
        have hIH := ih (rem.erase best) (sel ++ [best])
        have hperm : (sel ++ [best]) ++ rem.erase best = sel ++ (best :: rem.erase best) := by
          simp
        rw [hperm] at hIH
        have htail : (sel ++ (best :: rem.erase best)).Perm (sel ++ rem) :=
          List.Perm.append_left sel (List.perm_cons_erase hbest).symm
        exact hIH.trans htail.subperm

theorem mmrLoop_length (lam : ℚ) (topK candK : ℕ) :
    ∀ (fuel : ℕ) (remaining selected : List Candidate), selected.length ≤ topK →
      (mmrLoop lam topK candK fuel remaining selected).length ≤ topK := by
  intro fuel
  induction fuel with
  | zero => intro rem sel h; exact h
  | succ fuel ih =>
    intro rem sel h
    show (if rem = [] ∨ ¬ sel.length < topK then sel
      else match pickBest lam sel (rem.take candK) with
        | none => sel
        | some best => mmrLoop lam topK candK fuel (rem.erase best) (sel ++ [best])).length ≤ _
    split
    · exact h
    · rename_i hguard
      push_neg at hguard
      cases hpick : pickBest lam sel (rem.take candK) with
      | none => exact h
      | some best =>
        apply ih
        have : sel.length < topK := hguard.2
        simp only [List.length_append, List.length_singleton]
        omega

theorem mmrSelect_subperm (lam : ℚ) (topK candK : ℕ) (cands : List Candidate) :
    (mmrSelect lam topK candK cands).Subperm cands := by
  have h1 : (mmrSelect lam topK candK cands).Perm
      (mmrLoop lam topK candK cands.length (sortDescBy (fun c => c.hybrid.getD 0) cands) []) :=
    sortDescBy_perm _ _
  have h2 := mmrLoop_subperm lam topK candK cands.length
    (sortDescBy (fun c => c.hybrid.getD 0) cands) []
  simp only [List.nil_append] at h2
  have h3 : (sortDescBy (fun c : Candidate => c.hybrid.getD 0) cands).Perm cands :=
    sortDescBy_perm _ _
  exact h1.subperm.trans (h2.trans h3.subperm)

theorem mmrSelect_length_le (lam : ℚ) (topK candK : ℕ) (cands : List Candidate) :
    (mmrSelect lam topK candK cands).length ≤ min topK cands.length := by
  apply le_min
  · have h1 : (mmrSelect lam topK candK cands).length =
        (mmrLoop lam topK candK cands.length
          (sortDescBy (fun c => c.hybrid.getD 0) cands) []).length :=
      (sortDescBy_perm _ _).length_eq
    rw [h1]
    exact mmrLoop_length lam topK candK cands.length _ [] (Nat.zero_le topK)
  · exact length_le_of_subperm (mmrSelect_subperm lam topK candK cands)

/-! ## Claim C2: diversity selection -/

/-- Two candidates carrying the same vector key (legal input to the MMR
stage; the production store yields distinct keys, but nothing in
`query_vectors_hybrid` enforces that). -/
def mmrDupA : Candidate := { key := some "a", hybrid := some 1 }

def mmrDupB : Candidate := { key := some "a", hybrid := some 0 }

theorem mmrDup_tok : tokenize (contentOf mmrDupA) = [] ∧ tokenize (contentOf mmrDupB) = [] := by
  decide

theorem mmrDup_sort : sortDescBy (fun c => c.hybrid.getD 0) [mmrDupA, mmrDupB] =
    [mmrDupA, mmrDupB] := by
  unfold sortDescBy
  simp only [List.insertionSort, List.orderedInsert]
  norm_num [mmrDupA, mmrDupB]

theorem mmrDup_pick1 : pickBest 0 [] [mmrDupA, mmrDupB] = some mmrDupA := by
  unfold pickBest mmrOf
  simp only [List.foldl]
  norm_num [mmrDupA, mmrDupB]

theorem mmrDup_pick2 : pickBest 0 [mmrDupA] [mmrDupB] = some mmrDupB := by
  unfold pickBest mmrOf maxSimTo
  simp only [List.foldl, mmrDup_tok.1, mmrDup_tok.2, jaccard]
  norm_num [mmrDupA, mmrDupB]

theorem mmrDup_select : mmrSelect 0 2 40 [mmrDupA, mmrDupB] = [mmrDupA, mmrDupB] := by
  unfold mmrSelect
  rw [mmrDup_sort]
  show sortDescBy _ (mmrLoop 0 2 40 2 [mmrDupA, mmrDupB] []) = _
  rw [show (2 : ℕ) = 1 + 1 from rfl]
  simp only [mmrLoop]
  rw [if_neg (by simp)]
  simp only [List.take, mmrDup_pick1]
  rw [List.erase_cons_head]
  simp only [List.nil_append]
  rw [if_neg (by simp)]
  simp only [List.take, mmrDup_pick2]
  simp only [List.cons_append, List.nil_append]
  exact mmrDup_sort

/-- **C2 (counterexample).**  The claim promises a duplicate-key-free result
for *every* candidate list; but when two candidates carry the same key the
MMR loop can select both of them (it removes elements positionally, never by
key), so the selection contains the key `"a"` twice. -/
theorem C2_counterexample :
    mmrSelect 0 2 40 [mmrDupA, mmrDupB] = [mmrDupA, mmrDupB] ∧
    ¬ ((mmrSelect 0 2 40 [mmrDupA, mmrDupB]).map Candidate.key).Nodup := by
  refine ⟨mmrDup_select, ?_⟩
  rw [mmrDup_select]
  decide

/-- **C2 (amended).**  For every candidate list whose keys are pairwise
distinct and every `top_k`, diversity (MMR) selection returns a list with no
duplicate key, of length at most `min(top_k, |candidates|)`, ordered by
hybrid score descending regardless of pick order. -/
theorem C2_mmr_selection (lam : ℚ) (topK candK : ℕ) (cands : List Candidate)
    (hkeys : (cands.map Candidate.key).Nodup) :
    ((mmrSelect lam topK candK cands).map Candidate.key).Nodup ∧
    (mmrSelect lam topK candK cands).length ≤ min topK cands.length ∧
    List.Sorted (fun a b : Candidate => b.hybrid.getD 0 ≤ a.hybrid.getD 0)
      (mmrSelect lam topK candK cands) := by
  refine ⟨?_, mmrSelect_length_le lam topK candK cands, ?_⟩
  · exact nodup_of_subperm (subperm_map Candidate.key (mmrSelect_subperm lam topK candK cands))
      hkeys
  · unfold mmrSelect
    exact sortDescBy_sorted _ _

def mmrKeyA : Candidate := { key := some "a", hybrid := some 1 }

def mmrKeyB : Candidate := { key := some "b", hybrid := some 0 }

/-- Witness for C2 on a distinct-key candidate list. -/
theorem C2_mmr_selection_witness :
    (([mmrKeyA, mmrKeyB].map Candidate.key).Nodup) ∧
    ((mmrSelect (1/2) 2 40 [mmrKeyA, mmrKeyB]).map Candidate.key).Nodup ∧
    (mmrSelect (1/2) 2 40 [mmrKeyA, mmrKeyB]).length ≤ min 2 ([mmrKeyA, mmrKeyB].length) ∧
    List.Sorted (fun a b : Candidate => b.hybrid.getD 0 ≤ a.hybrid.getD 0)
      (mmrSelect (1/2) 2 40 [mmrKeyA, mmrKeyB]) := by
  refine ⟨by decide, ?_⟩
  exact C2_mmr_selection (1/2) 2 40 [mmrKeyA, mmrKeyB] (by decide)

/-! ## Claim C3: score normalization -/

theorem foldl_min_le_init (l : List ℚ) (a : ℚ) : l.foldl min a ≤ a := by
  induction l generalizing a with
  | nil => exact le_rfl
  | cons y ys ih => exact le_trans (ih (min a y)) (min_le_left a y)

theorem foldl_min_le_mem {x : ℚ} : ∀ (l : List ℚ) (a : ℚ), x ∈ l → l.foldl min a ≤ x := by
  intro l
  induction l with
  | nil => intro a hx; simp at hx
  | cons y ys ih =>
    intro a hx
    rcases List.mem_cons.mp hx with h | h
    · subst h
      exact le_trans (foldl_min_le_init ys (min a x)) (min_le_right a x)
    · exact ih (min a y) h

theorem init_le_foldl_max (l : List ℚ) (a : ℚ) : a ≤ l.foldl max a := by
  induction l generalizing a with
  | nil => exact le_rfl
  | cons y ys ih => exact le_trans (le_max_left a y) (ih (max a y))

theorem mem_le_foldl_max {x : ℚ} : ∀ (l : List ℚ) (a : ℚ), x ∈ l → x ≤ l.foldl max a := by
  intro l
  induction l with
  | nil => intro a hx; simp at hx
  | cons y ys ih =>
    intro a hx
    rcases List.mem_cons.mp hx with h | h
    · subst h
      exact le_trans (le_max_right a x) (init_le_foldl_max ys (max a x))
    · exact ih (max a y) h

theorem minQ_le_mem {l : List ℚ} {x : ℚ} (hx : x ∈ l) : minQ l ≤ x := by
  cases l with
  | nil => simp at hx
  | cons y ys =>
    rcases List.mem_cons.mp hx with h | h
    · subst h; exact foldl_min_le_init ys x
    · exact foldl_min_le_mem ys y h

theorem mem_le_maxQ {l : List ℚ} {x : ℚ} (hx : x ∈ l) : x ≤ maxQ l := by
  cases l with
  | nil => simp at hx
  | cons y ys =>
    rcases List.mem_cons.mp hx with h | h
    · subst h; exact init_le_foldl_max ys x
    · exact mem_le_foldl_max ys y h

theorem foldl_min_mem : ∀ (l : List ℚ) (a : ℚ), l.foldl min a ∈ a :: l := by
  intro l
  induction l with
  | nil => intro a; exact List.mem_singleton.mpr rfl
  | cons y ys ih =>
    intro a
    have h := ih (min a y)
    rcases List.mem_cons.mp h with h1 | h1
    · rcases min_choice a y with h2 | h2
      · exact List.mem_cons.mpr (Or.inl (h1.trans h2))
      · exact List.mem_cons.mpr (Or.inr (List.mem_cons.mpr (Or.inl (h1.trans h2))))
    · exact List.mem_cons.mpr (Or.inr (List.mem_cons.mpr (Or.inr h1)))

theorem foldl_max_mem : ∀ (l : List ℚ) (a : ℚ), l.foldl max a ∈ a :: l := by
  intro l
  induction l with
  | nil => intro a; exact List.mem_singleton.mpr rfl
  | cons y ys ih =>
    intro a
    have h := ih (max a y)
    rcases List.mem_cons.mp h with h1 | h1
    · rcases max_choice a y with h2 | h2
      · exact List.mem_cons.mpr (Or.inl (h1.trans h2))
      · exact List.mem_cons.mpr (Or.inr (List.mem_cons.mpr (Or.inl (h1.trans h2))))
    · exact List.mem_cons.mpr (Or.inr (List.mem_cons.mpr (Or.inr h1)))

theorem minQ_mem {l : List ℚ} (h : l ≠ []) : minQ l ∈ l := by
  cases l with
  | nil => exact absurd rfl h
  | cons y ys => exact foldl_min_mem ys y

theorem maxQ_mem {l : List ℚ} (h : l ≠ []) : maxQ l ∈ l := by
  cases l with
  | nil => exact absurd rfl h
  | cons y ys => exact foldl_max_mem ys y

theorem minQ_le_maxQ {l : List ℚ} (h : l ≠ []) : minQ l ≤ maxQ l :=
  le_trans (minQ_le_mem (minQ_mem h)) (mem_le_maxQ (minQ_mem h))

theorem normSimAll_bounds {sims : List ℚ} (h : sims ≠ []) :
    ∀ x ∈ normSimAll sims, 0 ≤ x ∧ x ≤ 1 := by
  intro x hx
  rcases List.mem_map.mp hx with ⟨s, hs, rfl⟩
  by_cases htie : maxQ sims = minQ sims
  · rw [if_pos htie]
    exact ⟨zero_le_one, le_rfl⟩
  · rw [if_neg htie]
    have h1 : minQ sims ≤ s := minQ_le_mem hs
    have h2 : s ≤ maxQ sims := mem_le_maxQ hs
    have h3 : minQ sims < maxQ sims := lt_of_le_of_ne (minQ_le_maxQ h) (Ne.symm htie)
    constructor
    · exact div_nonneg (by linarith) (by linarith)
    · rw [div_le_one (by linarith)]
      linarith

theorem normLexAll_bounds (raw : List ℚ) : ∀ x ∈ normLexAll raw, 0 ≤ x ∧ x ≤ 1 := by
  intro x hx
  rcases List.mem_map.mp hx with ⟨s, hs, rfl⟩
  have hne : raw ≠ [] := List.ne_nil_of_mem hs
  by_cases htie : maxQ raw = minQ raw
  · rw [if_pos htie]
    by_cases hpos : 0 < s
    · rw [if_pos hpos]; exact ⟨zero_le_one, le_rfl⟩
    · rw [if_neg hpos]; exact ⟨le_rfl, zero_le_one⟩
  · rw [if_neg htie]
    have h1 : minQ raw ≤ s := minQ_le_mem hs
    have h2 : s ≤ maxQ raw := mem_le_maxQ hs
    have h3 : minQ raw < maxQ raw := lt_of_le_of_ne (minQ_le_maxQ hne) (Ne.symm htie)
    constructor
    · exact div_nonneg (by linarith) (by linarith)
    · rw [div_le_one (by linarith)]
      linarith

theorem normSimAll_tie {sims : List ℚ} (h : sims ≠ [])
    (hall : ∀ a ∈ sims, ∀ b ∈ sims, a = b) : ∀ x ∈ normSimAll sims, x = 1 := by
  have htie : maxQ sims = minQ sims := hall _ (maxQ_mem h) _ (minQ_mem h)
  intro x hx
  rcases List.mem_map.mp hx with ⟨s, _, rfl⟩
  rw [if_pos htie]

theorem normLexAll_tie (raw : List ℚ) (hall : ∀ a ∈ raw, ∀ b ∈ raw, a = b) :
    normLexAll raw = raw.map (fun x => if 0 < x then 1 else 0) := by
  cases hr : raw with
  | nil => rfl
  | cons y ys =>
    have hne : raw ≠ [] := by rw [hr]; exact List.cons_ne_nil y ys
    have htie : maxQ raw = minQ raw := hall _ (maxQ_mem hne) _ (minQ_mem hne)
    rw [← hr]
    unfold normLexAll
    exact List.map_congr_left (fun x _ => by rw [if_pos htie])

/-- **C3.**  For every non-empty candidate batch: all min-max normalized
similarity values and all min-max normalized lexical values lie in `[0, 1]`;
if all raw similarities are equal every normalized similarity is `1`; if all
raw lexical scores are equal each normalized lexical score is `1` for a
positive raw score and `0` otherwise.  (`bm25` is the in-batch lexical
scorer; the bounds hold for every interpretation of `math.log`.) -/
theorem C3_score_normalization (log : ℚ → ℚ) (queryText : String) (cands : List Candidate)
    (h : cands ≠ []) :
    (∀ x ∈ normSimAll (cands.map baseRelevance), 0 ≤ x ∧ x ≤ 1) ∧
    (∀ x ∈ normLexAll (bm25 log (tokenizeList queryText)
        (cands.map (fun c => tokenizeList (contentOf c)))), 0 ≤ x ∧ x ≤ 1) ∧
    ((∀ a ∈ cands.map baseRelevance, ∀ b ∈ cands.map baseRelevance, a = b) →
      ∀ x ∈ normSimAll (cands.map baseRelevance), x = 1) ∧
    (∀ raw : List ℚ, (∀ a ∈ raw, ∀ b ∈ raw, a = b) →
      normLexAll raw = raw.map (fun x => if 0 < x then 1 else 0)) := by
  have hmne : cands.map baseRelevance ≠ [] := by
    intro hm
    exact h (List.map_eq_nil_iff.mp hm)
  exact ⟨normSimAll_bounds hmne, normLexAll_bounds _,
    fun hall => normSimAll_tie hmne hall, fun raw hall => normLexAll_tie raw hall⟩

def c3w : Candidate := { score := some 1 }

/-- Witness for C3 on a one-candidate batch. -/
theorem C3_score_normalization_witness :
    ([c3w] : List Candidate) ≠ [] ∧
    (∀ x ∈ normSimAll ([c3w].map baseRelevance), 0 ≤ x ∧ x ≤ 1) ∧
    (∀ x ∈ normLexAll (bm25 (fun x => x) (tokenizeList "q")
        ([c3w].map (fun c => tokenizeList (contentOf c)))), 0 ≤ x ∧ x ≤ 1) ∧
    ((∀ a ∈ [c3w].map baseRelevance, ∀ b ∈ [c3w].map baseRelevance, a = b) →
      ∀ x ∈ normSimAll ([c3w].map baseRelevance), x = 1) ∧
    (∀ raw : List ℚ, (∀ a ∈ raw, ∀ b ∈ raw, a = b) →
      normLexAll raw = raw.map (fun x => if 0 < x then 1 else 0)) :=
  ⟨List.cons_ne_nil _ _,
    C3_score_normalization (fun x => x) "q" [c3w] (List.cons_ne_nil _ _)⟩

/-! ## Claims C5 and C10: type-aware reranking -/

/-- The loop body of `rerank_results` computes exactly the claim-side rerank
formula (and touches only the `rerank_score` field). -/
theorem rerankOne_eq (q : String) (r : Candidate) :
    rerankOne (pyLower q) r = { r with rerankScore := some (rerankValue q r) } := rfl

theorem rerank_mem {results : List Candidate} {q : String} {r : Candidate}
    (h : r ∈ rerankResults results q) : ∃ r0 ∈ results, r = rerankOne (pyLower q) r0 := by
  unfold rerankResults at h
  have h2 := (sortDescBy_perm (fun c : Candidate => c.rerankScore.getD 0)
    (results.map (rerankOne (pyLower q)))).mem_iff.mp h
  rcases List.mem_map.mp h2 with ⟨r0, hr0, heq⟩
  exact ⟨r0, hr0, heq.symm⟩

theorem ite_boost_le (p q : Prop) [Decidable p] [Decidable q] :
    (if p then (if q then (1 : ℚ)/5 else 1/10) else 0) ≤ 1/5 := by
  split_ifs <;> norm_num

theorem ite_boost_pos {p q : Prop} [Decidable p] [Decidable q]
    (h : 0 < (if p then (if q then (1 : ℚ)/5 else 1/10) else 0)) : p := by
  by_cases hp : p
  · exact hp
  · rw [if_neg hp] at h
    exact absurd h (by norm_num)

theorem ite_min_le {α : Type} [DecidableEq α] (L : List α) :
    (if L ≠ [] then min ((1 : ℚ)/5) ((L.length : ℚ) * (1/20)) else 0) ≤ 1/5 := by
  split_ifs
  · exact min_le_left _ _
  · norm_num

theorem ite_ne_nil_length {α : Type} [DecidableEq α] (L : List α) (a : ℚ) :
    (if L ≠ [] then a else 0) = (if L.length ≠ 0 then a else 0) := by
  by_cases hc : L = [] <;> simp [hc]

theorem specTableBoost_le (q : String) (c : Candidate) : specTableBoost q c ≤ 1/5 :=
  ite_boost_le _ _

theorem specTableBoost_pos (q : String) (c : Candidate) (h : 0 < specTableBoost q c) :
    hasTableMarkers c = true := by
  have hp : pyIn "[table start]" (pyLower (c.metadata.sourceText.getD "")) = true ∨
      pyIn "headers:" (pyLower (c.metadata.sourceText.getD "")) = true ∨
      pyIn "row:" (pyLower (c.metadata.sourceText.getD "")) = true := ite_boost_pos h
  simp only [hasTableMarkers, Bool.or_eq_true]
  tauto

theorem specKeywordBoost_le (q : String) (c : Candidate) : specKeywordBoost q c ≤ 1/5 :=
  ite_min_le _

theorem specKeywordBoost_count (q : String) (c : Candidate) :
    specKeywordBoost q c =
      (if sharedKeywordCount q c ≠ 0 then
        min (1/5) ((sharedKeywordCount q c : ℚ) * (1/20))
      else 0) :=
  ite_ne_nil_length _ _

/-- **C5.**  Every result of type-aware reranking carries the rerank score
`base_relevance * (1 + type_boost + heuristic_table_boost +
keyword_overlap_boost)` with the boost values of the claim: the type boost is
0.4/0.3/0.3/0 by intent and chunk type (`specTypeBoost`), the heuristic table
boost is at most 0.2 and positive only when the content shows table-like
markers, and the keyword boost is 0.05 per shared non-stopword token capped
at 0.2. -/
theorem C5_rerank_formula (results : List Candidate) (queryText : String) :
    ∀ r ∈ rerankResults results queryText,
      r.rerankScore = some (rerankValue queryText r) ∧
      specTableBoost queryText r ≤ 1/5 ∧
      (0 < specTableBoost queryText r → hasTableMarkers r = true) ∧
      specKeywordBoost queryText r =
        (if sharedKeywordCount queryText r ≠ 0 then
          min (1/5) ((sharedKeywordCount queryText r : ℚ) * (1/20))
        else 0) ∧
      specKeywordBoost queryText r ≤ 1/5 := by
  intro r hr
  rcases rerank_mem hr with ⟨r0, _, rfl⟩
  rw [rerankOne_eq]
  exact ⟨rfl, specTableBoost_le _ _, specTableBoost_pos _ _, specKeywordBoost_count _ _,
    specKeywordBoost_le _ _⟩

def c5wMeta : Metadata := { sourceText := some "x", chunkContentType := some "table_row" }

def c5w : Candidate := { distance := some 0, metadata := c5wMeta }

theorem c5w_mem : rerankOne (pyLower "value") c5w ∈ rerankResults [c5w] "value" := by
  unfold rerankResults sortDescBy
  simp [List.insertionSort, List.orderedInsert]

/-- Witness for C5 on a one-element result list. -/
theorem C5_rerank_formula_witness :
    rerankOne (pyLower "value") c5w ∈ rerankResults [c5w] "value" ∧
    ((rerankOne (pyLower "value") c5w).rerankScore =
        some (rerankValue "value" (rerankOne (pyLower "value") c5w)) ∧
      specTableBoost "value" (rerankOne (pyLower "value") c5w) ≤ 1/5 ∧
      (0 < specTableBoost "value" (rerankOne (pyLower "value") c5w) →
        hasTableMarkers (rerankOne (pyLower "value") c5w) = true) ∧
      specKeywordBoost "value" (rerankOne (pyLower "value") c5w) =
        (if sharedKeywordCount "value" (rerankOne (pyLower "value") c5w) ≠ 0 then
          min (1/5) ((sharedKeywordCount "value" (rerankOne (pyLower "value") c5w) : ℚ) * (1/20))
        else 0) ∧
      specKeywordBoost "value" (rerankOne (pyLower "value") c5w) ≤ 1/5) :=
  ⟨c5w_mem, C5_rerank_formula [c5w] "value" _ c5w_mem⟩

/-- **C10.**  Type-aware reranking returns a permutation of exactly its
input: forgetting the `rerank_score` field, the output is a permutation of
the input, and every output element agrees with some input element on every
other field, its only modification being the `rerank_score` it now carries
(which equals the rerank formula on its unchanged fields). -/
theorem C10_rerank_permutation (results : List Candidate) (queryText : String) :
    ((rerankResults results queryText).map (fun r => { r with rerankScore := none })).Perm
      (results.map (fun r => { r with rerankScore := none })) ∧
    ∀ r ∈ rerankResults results queryText, ∃ r0 ∈ results,
      ({ r with rerankScore := none } : Candidate) = { r0 with rerankScore := none } ∧
      r.rerankScore = some (rerankValue queryText r) := by
  constructor
  · have hp := (sortDescBy_perm (fun c : Candidate => c.rerankScore.getD 0)
      (results.map (rerankOne (pyLower queryText)))).map
      (fun r => { r with rerankScore := none })
    have h2 : ((results.map (rerankOne (pyLower queryText))).map
        (fun r => { r with rerankScore := none })) =
        results.map (fun r => { r with rerankScore := none }) := by
      rw [List.map_map]
      rfl
    rw [h2] at hp
    exact hp
  · intro r hr
    rcases rerank_mem hr with ⟨r0, hr0, rfl⟩
    rw [rerankOne_eq]
    exact ⟨r0, hr0, rfl, rfl⟩

/-- Witness for C10's membership conjunct on a one-element list. -/
theorem C10_rerank_permutation_witness :
    rerankOne (pyLower "value") c5w ∈ rerankResults [c5w] "value" ∧
    (∃ r0 ∈ ([c5w] : List Candidate),
      ({ rerankOne (pyLower "value") c5w with rerankScore := none } : Candidate) =
        { r0 with rerankScore := none } ∧
      (rerankOne (pyLower "value") c5w).rerankScore =
        some (rerankValue "value" (rerankOne (pyLower "value") c5w))) :=
  ⟨c5w_mem, (C10_rerank_permutation [c5w] "value").2 _ c5w_mem⟩

/-! ## Claim C8: variant fan-out and max-score merging -/

theorem lookup_cons_char (k a : String) (b : Candidate) (rest : List (String × Candidate)) :
    List.lookup k ((a, b) :: rest) = if k = a then some b else List.lookup k rest := by
  by_cases h : k = a
  · rw [if_pos h]
    subst h
    simp [List.lookup]
  · rw [if_neg h]
    have hb : (k == a) = false := beq_eq_false_iff_ne.mpr h
    simp [List.lookup, hb]

theorem lookup_none_not_mem {acc : List (String × Candidate)} {k : String}
    (h : acc.lookup k = none) : k ∉ acc.map Prod.fst := by
  induction acc with
  | nil => simp
  | cons kv rest ih =>
    cases kv with
    | mk a b =>
      rw [lookup_cons_char] at h
      by_cases hk : k = a
      · rw [if_pos hk] at h
        exact Option.noConfusion h
      · rw [if_neg hk] at h
        simp only [List.map_cons, List.mem_cons]
        rintro (h1 | h1)
        · exact hk h1
        · exact ih h h1

theorem lookup_some_mem {acc : List (String × Candidate)} {k : String} {v : Candidate}
    (h : acc.lookup k = some v) : (k, v) ∈ acc := by
  induction acc with
  | nil => simp [List.lookup] at h
  | cons kv rest ih =>
    cases kv with
    | mk a b =>
      rw [lookup_cons_char] at h
      by_cases hk : k = a
      · rw [if_pos hk] at h
        have hv : b = v := Option.some_inj.mp h
        subst hk
        subst hv
        exact List.mem_cons_self _ _
      · rw [if_neg hk] at h
        exact List.mem_cons_of_mem _ (ih h)

theorem updateAssoc_keys (k : String) (v : Candidate) :
    ∀ (acc : List (String × Candidate)),
      (updateAssoc k v acc).map Prod.fst = acc.map Prod.fst := by
  intro acc
  induction acc with
  | nil => rfl
  | cons kv rest ih =>
    cases kv with
    | mk a b =>
      by_cases hk : a = k
      · simp [updateAssoc, hk]
      · simp [updateAssoc, hk, ih]

theorem mem_updateAssoc_of_ne {kv : String × Candidate} {k : String} {v : Candidate} :
    ∀ {acc : List (String × Candidate)}, kv ∈ acc → kv.1 ≠ k →
      kv ∈ updateAssoc k v acc := by
  intro acc
  induction acc with
  | nil => intro h _; simp at h
  | cons kv2 rest ih =>
    intro hmem hne
    cases kv2 with
    | mk a b =>
      rcases List.mem_cons.mp hmem with h1 | h1
      · by_cases hk : a = k
        · exfalso
          rw [h1] at hne
          exact hne hk
        · rw [h1]
          simp [updateAssoc, hk]
      · by_cases hk : a = k
        · simp only [updateAssoc, if_pos hk]
          exact List.mem_cons_of_mem _ h1
        · simp only [updateAssoc, if_neg hk]
          exact List.mem_cons_of_mem _ (ih h1 hne)

theorem mem_updateAssoc_self {k : String} {v : Candidate} :
    ∀ {acc : List (String × Candidate)}, k ∈ acc.map Prod.fst →
      (k, v) ∈ updateAssoc k v acc := by
  intro acc
  induction acc with
  | nil => intro h; simp at h
  | cons kv2 rest ih =>
    intro hmem
    cases kv2 with
    | mk a b =>
      by_cases hk : a = k
      · simp only [updateAssoc, if_pos hk]
        rw [← hk]
        exact List.mem_cons_self _ _
      · simp only [updateAssoc, if_neg hk]
        apply List.mem_cons_of_mem
        apply ih
        rcases List.mem_map.mp hmem with ⟨x, hx, hfst⟩
        rcases List.mem_cons.mp hx with h1 | h1
        · exfalso
          rw [h1] at hfst
          exact hk hfst
        · exact List.mem_map.mpr ⟨x, h1, hfst⟩

theorem mem_updateAssoc {kv : String × Candidate} {k : String} {v : Candidate} :
    ∀ {acc : List (String × Candidate)}, (acc.map Prod.fst).Nodup →
      kv ∈ updateAssoc k v acc → kv = (k, v) ∨ (kv ∈ acc ∧ kv.1 ≠ k) := by
  intro acc
  induction acc with
  | nil => intro _ h; simp [updateAssoc] at h
  | cons kv2 rest ih =>
    intro hn hmem
    cases kv2 with
    | mk a b =>
      have hnrest : (rest.map Prod.fst).Nodup := (List.nodup_cons.mp hn).2
      have hanotin : a ∉ rest.map Prod.fst := (List.nodup_cons.mp hn).1
      by_cases hk : a = k
      · rw [updateAssoc, if_pos hk] at hmem
        rcases List.mem_cons.mp hmem with h1 | h1
        · left
          rw [h1, hk]
        · right
          refine ⟨List.mem_cons_of_mem _ h1, ?_⟩
          intro hkv
          apply hanotin
          rw [hk, ← hkv]
          exact List.mem_map.mpr ⟨kv, h1, rfl⟩
      · rw [updateAssoc, if_neg hk] at hmem
        rcases List.mem_cons.mp hmem with h1 | h1
        · right
          refine ⟨List.mem_cons.mpr (Or.inl h1), ?_⟩
          rw [h1]
          exact hk
        · rcases ih hnrest h1 with h2 | h2
          · exact Or.inl h2
          · exact Or.inr ⟨List.mem_cons_of_mem _ h2.1, h2.2⟩

theorem nodup_key_val_unique {k : String} {a b : Candidate} :
    ∀ {acc : List (String × Candidate)}, (acc.map Prod.fst).Nodup →
      (k, a) ∈ acc → (k, b) ∈ acc → a = b := by
  intro acc
  induction acc with
  | nil => intro _ h; simp at h
  | cons kv2 rest ih =>
    intro hn h1 h2
    have hnrest : (rest.map Prod.fst).Nodup := (List.nodup_cons.mp hn).2
    have hnotin : kv2.1 ∉ rest.map Prod.fst := (List.nodup_cons.mp hn).1
    rcases List.mem_cons.mp h1 with ha | ha <;> rcases List.mem_cons.mp h2 with hb | hb
    · rw [← hb] at ha
      exact congrArg Prod.snd ha
    · exfalso
      apply hnotin
      rw [← ha]
      exact List.mem_map.mpr ⟨(k, b), hb, rfl⟩
    · exfalso
      apply hnotin
      rw [← hb]
      exact List.mem_map.mpr ⟨(k, a), ha, rfl⟩
    · exact ih hnrest ha hb

/-- The update of a candidate's merge score leaves its key unchanged. -/
theorem uniqueKeyOf_setScore (r : Candidate) (s : ℚ) :
    uniqueKeyOf { r with mergeScore := some s } = uniqueKeyOf r := rfl

/-- The loop invariant of the max-score-per-key merge: keys are unique, every
stored entry comes from a processed result whose score is maximal for its
key, and every processed result's key is stored. -/
def MergeInv (processed : List Candidate) (acc : List (String × Candidate)) : Prop :=
  (acc.map Prod.fst).Nodup ∧
  (∀ kv ∈ acc, uniqueKeyOf kv.2 = kv.1 ∧
    (∃ r ∈ processed, uniqueKeyOf r = kv.1 ∧ kv.2 = { r with mergeScore := some (scoreOf r) }) ∧
    (∀ r ∈ processed, uniqueKeyOf r = kv.1 → scoreOf r ≤ kv.2.mergeScore.getD 0)) ∧
  (∀ r ∈ processed, ∃ kv ∈ acc, kv.1 = uniqueKeyOf r)

theorem mergeInv_step {processed : List Candidate} {acc : List (String × Candidate)}
    (r : Candidate) (h : MergeInv processed acc) :
    MergeInv (processed ++ [r]) (mergeStep acc r) := by
  obtain ⟨hnd, hstore, hcover⟩ := h
  cases hlk : acc.lookup (uniqueKeyOf r) with
  | none =>
    have hstep : mergeStep acc r =
        acc ++ [(uniqueKeyOf r, { r with mergeScore := some (scoreOf r) })] := by
      unfold mergeStep
      rw [hlk]
    have hknot : uniqueKeyOf r ∉ acc.map Prod.fst := lookup_none_not_mem hlk
    rw [hstep]
    refine ⟨?_, ?_, ?_⟩
    · rw [List.map_append]
      apply List.Nodup.append hnd (by simp)
      intro a ha hb
      have : a = uniqueKeyOf r := by simpa using hb
      rw [this] at ha
      exact hknot ha
    · intro kv hkv
      rcases List.mem_append.mp hkv with hin | hin
      · obtain ⟨hkey, ⟨r0, hr0, hr0k, hr0v⟩, hmax⟩ := hstore kv hin
        refine ⟨hkey, ⟨r0, List.mem_append.mpr (Or.inl hr0), hr0k, hr0v⟩, ?_⟩
        intro r2 hr2 hkeq
        rcases List.mem_append.mp hr2 with h2 | h2
        · exact hmax r2 h2 hkeq
        · exfalso
          have hr2r : r2 = r := List.mem_singleton.mp h2
          apply hknot
          rw [← hr2r, hkeq]
          exact List.mem_map.mpr ⟨kv, hin, rfl⟩
      · have hkv2 : kv = (uniqueKeyOf r, { r with mergeScore := some (scoreOf r) }) :=
          List.mem_singleton.mp hin
        subst hkv2
        refine ⟨uniqueKeyOf_setScore r (scoreOf r),
          ⟨r, List.mem_append.mpr (Or.inr (by simp)), rfl, rfl⟩, ?_⟩
        intro r2 hr2 hkeq
        rcases List.mem_append.mp hr2 with h2 | h2
        · exfalso
          rcases hcover r2 h2 with ⟨kv2, hkv2in, hkv2k⟩
          apply hknot
          have hke : kv2.1 = uniqueKeyOf r := by rw [hkv2k, hkeq]
          rw [← hke]
          exact List.mem_map.mpr ⟨kv2, hkv2in, rfl⟩
        · have hr2r : r2 = r := List.mem_singleton.mp h2
          subst hr2r
          exact le_rfl
    · intro r2 hr2
      rcases List.mem_append.mp hr2 with h2 | h2
      · rcases hcover r2 h2 with ⟨kv2, hin, hk⟩
        exact ⟨kv2, List.mem_append.mpr (Or.inl hin), hk⟩
      · have hr2r : r2 = r := List.mem_singleton.mp h2
        subst hr2r
        exact ⟨(uniqueKeyOf r2, { r2 with mergeScore := some (scoreOf r2) }),
          List.mem_append.mpr (Or.inr (by simp)), rfl⟩
  | some old =>
    have holdmem : (uniqueKeyOf r, old) ∈ acc := lookup_some_mem hlk
    have hkin : uniqueKeyOf r ∈ acc.map Prod.fst := List.mem_map.mpr ⟨_, holdmem, rfl⟩
    by_cases hlt : old.mergeScore.getD 0 < scoreOf r
    · have hstep : mergeStep acc r =
          updateAssoc (uniqueKeyOf r) { r with mergeScore := some (scoreOf r) } acc := by
        unfold mergeStep
        rw [hlk]
        exact if_pos hlt
      rw [hstep]
      refine ⟨?_, ?_, ?_⟩
      · rw [updateAssoc_keys]
        exact hnd
      · intro kv hkv
        rcases mem_updateAssoc hnd hkv with hnew | ⟨hold, hne⟩
        · subst hnew
          refine ⟨uniqueKeyOf_setScore r (scoreOf r),
            ⟨r, List.mem_append.mpr (Or.inr (by simp)), rfl, rfl⟩, ?_⟩
          intro r2 hr2 hkeq
          rcases List.mem_append.mp hr2 with h2 | h2
          · obtain ⟨_, _, hmaxold⟩ := hstore (uniqueKeyOf r, old) holdmem
            have hle := hmaxold r2 h2 hkeq
            exact le_trans hle (le_of_lt hlt)
          · have hr2r : r2 = r := List.mem_singleton.mp h2
            subst hr2r
            exact le_rfl
        · obtain ⟨hkey, ⟨r0, hr0, hr0k, hr0v⟩, hmax⟩ := hstore kv hold
          refine ⟨hkey, ⟨r0, List.mem_append.mpr (Or.inl hr0), hr0k, hr0v⟩, ?_⟩
          intro r2 hr2 hkeq
          rcases List.mem_append.mp hr2 with h2 | h2
          · exact hmax r2 h2 hkeq
          · exfalso
            have hr2r : r2 = r := List.mem_singleton.mp h2
            rw [hr2r] at hkeq
            exact hne hkeq.symm
      · intro r2 hr2
        rcases List.mem_append.mp hr2 with h2 | h2
        · rcases hcover r2 h2 with ⟨kv2, hin, hk⟩
          by_cases hkk : kv2.1 = uniqueKeyOf r
          · refine ⟨(uniqueKeyOf r, { r with mergeScore := some (scoreOf r) }),
              mem_updateAssoc_self hkin, ?_⟩
            rw [← hk, ← hkk]
          · exact ⟨kv2, mem_updateAssoc_of_ne hin hkk, hk⟩
        · have hr2r : r2 = r := List.mem_singleton.mp h2
          subst hr2r
          exact ⟨(uniqueKeyOf r2, { r2 with mergeScore := some (scoreOf r2) }),
            mem_updateAssoc_self hkin, rfl⟩
    · have hstep : mergeStep acc r = acc := by
        unfold mergeStep
        rw [hlk]
        exact if_neg hlt
      rw [hstep]
      refine ⟨hnd, ?_, ?_⟩
      · intro kv hkv
        obtain ⟨hkey, ⟨r0, hr0, hr0k, hr0v⟩, hmax⟩ := hstore kv hkv
        refine ⟨hkey, ⟨r0, List.mem_append.mpr (Or.inl hr0), hr0k, hr0v⟩, ?_⟩
        intro r2 hr2 hkeq
        rcases List.mem_append.mp hr2 with h2 | h2
        · exact hmax r2 h2 hkeq
        · have hr2r : r2 = r := List.mem_singleton.mp h2
          subst hr2r
          have hkveq : kv.2 = old := by
            apply @nodup_key_val_unique _ _ _ acc hnd
            · have : (kv.1, kv.2) = kv := rfl
              rw [this]
              exact hkv
            · rw [← hkeq]
              exact holdmem
          rw [hkveq]
          exact not_lt.mp hlt
      · intro r2 hr2
        rcases List.mem_append.mp hr2 with h2 | h2
        · exact hcover r2 h2
        · have hr2r : r2 = r := List.mem_singleton.mp h2
          subst hr2r
          exact ⟨(uniqueKeyOf r2, old), holdmem, rfl⟩

theorem mergeFold_inv :
    ∀ (rest processed : List Candidate) (acc : List (String × Candidate)),
      MergeInv processed acc → MergeInv (processed ++ rest) (mergeFold acc rest) := by
  intro rest
  induction rest with
  | nil =>
    intro processed acc h
    simpa [mergeFold] using h
  | cons r rest ih =>
    intro processed acc h
    have h2 := mergeInv_step r h
    have h3 := ih (processed ++ [r]) (mergeStep acc r) h2
    have harr : (processed ++ [r]) ++ rest = processed ++ (r :: rest) := by simp
    rw [harr] at h3
    exact h3

/-- The three merge properties of `ask_with_context`'s dedup step: no
duplicate key, each merged entry is an input entry (with `_score` set)
achieving the maximum score of its key, and every input key survives. -/
theorem mergeByKey_spec (rs : List Candidate) :
    ((mergeByKey rs).map uniqueKeyOf).Nodup ∧
    (∀ m ∈ mergeByKey rs, ∃ r ∈ rs, uniqueKeyOf r = uniqueKeyOf m ∧
      m = { r with mergeScore := some (scoreOf r) } ∧
      (∀ r2 ∈ rs, uniqueKeyOf r2 = uniqueKeyOf m → scoreOf r2 ≤ m.mergeScore.getD 0)) ∧
    (∀ r ∈ rs, ∃ m ∈ mergeByKey rs, uniqueKeyOf m = uniqueKeyOf r) := by
  have hbase : MergeInv [] [] := ⟨List.nodup_nil, by simp, by simp⟩
  have hinv := mergeFold_inv rs [] [] hbase
  rw [List.nil_append] at hinv
  obtain ⟨hnd, hstore, hcover⟩ := hinv
  refine ⟨?_, ?_, ?_⟩
  · unfold mergeByKey
    rw [List.map_map]
    have hmaps : (mergeFold [] rs).map (uniqueKeyOf ∘ Prod.snd) =
        (mergeFold [] rs).map Prod.fst :=
      List.map_congr_left (fun kv hkv => (hstore kv hkv).1)
    rw [hmaps]
    exact hnd
  · intro m hm
    rcases List.mem_map.mp hm with ⟨kv, hkv, hsnd⟩
    obtain ⟨hkey, ⟨r0, hr0, hr0k, hr0v⟩, hmax⟩ := hstore kv hkv
    refine ⟨r0, hr0, ?_, ?_, ?_⟩
    · rw [hr0k, ← hsnd, hkey]
    · rw [← hsnd, hr0v]
    · intro r2 hr2 hkeq
      rw [← hsnd]
      apply hmax r2 hr2
      rw [hkeq, ← hsnd, hkey]
  · intro r hr
    rcases hcover r hr with ⟨kv, hkv, hk⟩
    refine ⟨kv.2, List.mem_map.mpr ⟨kv, hkv, rfl⟩, ?_⟩
    rw [(hstore kv hkv).1, hk]

theorem except_bind_ok {α β : Type} (a : α) (f : α → Except String β) :
    ((Except.ok a : Except String α) >>= f) = f a := rfl

theorem except_bind_error {α β : Type} (e : String) (f : α → Except String β) :
    ((Except.error e : Except String α) >>= f) = Except.error e := rfl

theorem variations_length_le (q : String) : (variations q).length ≤ 4 := by
  have h : ∀ l : List String, ((pyDedup l).take 4).length ≤ 4 := by
    intro l
    rw [List.length_take]
    exact min_le_left _ _
  exact h _

theorem self_mem_variations (q : String) : q ∈ variations q := by
  have hded : ∀ (l : List String), q ∈ (pyDedup (q :: l)).take 4 := by
    intro l
    have h1 : pyDedup (q :: l) = q :: dedupGo [q] l := by
      simp [pyDedup, dedupGo]
    have h4 : (4 : ℕ) = 3 + 1 := rfl
    rw [h1, h4, List.take_succ_cons]
    exact List.mem_cons_self _ _
  simp only [variations]
  split_ifs <;> exact hded _

def mA : Candidate := { key := some "K", rerankScore := some (3/10) }

def mB : Candidate := { key := some "K", rerankScore := some (7/10) }

theorem merge_step_one : mergeStep [] mA = [("K", { mA with mergeScore := some ((3:ℚ)/10) })] :=
  rfl

theorem merge_step_two :
    mergeStep [("K", { mA with mergeScore := some ((3:ℚ)/10) })] mB =
      [("K", { mB with mergeScore := some ((7:ℚ)/10) })] := by
  have hlk : List.lookup (uniqueKeyOf mB)
      [("K", { mA with mergeScore := some ((3:ℚ)/10) })] =
      some { mA with mergeScore := some ((3:ℚ)/10) } := rfl
  unfold mergeStep
  rw [hlk]
  show (if ({ mA with mergeScore := some ((3:ℚ)/10) }).mergeScore.getD 0 < scoreOf mB then
      updateAssoc (uniqueKeyOf mB) { mB with mergeScore := some (scoreOf mB) }
        [("K", { mA with mergeScore := some ((3:ℚ)/10) })]
    else [("K", { mA with mergeScore := some ((3:ℚ)/10) })]) = _
  split_ifs with hcond
  · rfl
  · exact absurd (show (3:ℚ)/10 < 7/10 by norm_num) hcond

theorem merge_three_seven :
    mergeByKey [mA, mB] = [{ mB with mergeScore := some ((7:ℚ)/10) }] := by
  unfold mergeByKey
  show ((mergeFold (mergeStep [] mA) [mB]).map Prod.snd) = _
  rw [merge_step_one]
  show ((mergeFold (mergeStep [("K", { mA with mergeScore := some ((3:ℚ)/10) })] mB) []).map
    Prod.snd) = _
  rw [merge_step_two]
  rfl

/-- **C8.**  The orchestrator issues at most 4 query variants including the
original query (first); merging keeps exactly one entry per chunk key, namely
an input entry of that key whose score is maximal among all entries of that
key, and drops no key; the merged list is truncated to the caller's `top_k`;
and merging two entries with the same key and scores 0.3 and 0.7 keeps the
0.7 one. -/
theorem C8_variant_merge :
    (∀ q : String, (variations q).length ≤ 4 ∧ q ∈ variations q) ∧
    (∀ rs : List Candidate,
      ((mergeByKey rs).map uniqueKeyOf).Nodup ∧
      (∀ m ∈ mergeByKey rs, ∃ r ∈ rs, uniqueKeyOf r = uniqueKeyOf m ∧
        m = { r with mergeScore := some (scoreOf r) } ∧
        (∀ r2 ∈ rs, uniqueKeyOf r2 = uniqueKeyOf m → scoreOf r2 ≤ m.mergeScore.getD 0)) ∧
      (∀ r ∈ rs, ∃ m ∈ mergeByKey rs, uniqueKeyOf m = uniqueKeyOf r)) ∧
    (∀ (env : Env) (S : Settings) (q : String) (topK : ℕ) (useR : Bool)
        (docIds : Option (List String)) (resp : QAResponse),
      askWithContext env S q topK useR docIds = .ok resp → resp.results.length ≤ topK) ∧
    mergeByKey [mA, mB] = [{ mB with mergeScore := some ((7:ℚ)/10) }] := by
  refine ⟨fun q => ⟨variations_length_le q, self_mem_variations q⟩, mergeByKey_spec, ?_,
    merge_three_seven⟩
  intro env S q topK useR docIds resp h
  unfold askWithContext at h
  cases hcoll : collectVariants env S (min S.retrievalMaxTopK (max 5 topK))
      (min S.retrievalMaxCandidates (max S.retrievalCandidateK (topK * 3)))
      useR docIds (variations q) with
  | error e =>
    rw [hcoll, except_bind_error] at h
    exact Except.noConfusion h
  | ok all =>
    rw [hcoll, except_bind_ok] at h
    by_cases hall : all = []
    · rw [if_pos hall] at h
      have hresp := (Except.ok.injEq _ _).mp h
      rw [← hresp]
      simp
    · rw [if_neg hall] at h
      have hresp := (Except.ok.injEq _ _).mp h
      rw [← hresp]
      simp only []
      rw [List.length_take]
      exact min_le_left _ _

/-- Witness for C8's truncation conjunct on a concrete empty-store run. -/
theorem C8_variant_merge_witness :
    askWithContext
        { queryVectorsExt := fun _ _ => .ok [], log := fun x => x,
          embed := fun _ => [], generateAnswer := fun _ _ => "" }
        {} "q" 5 true none =
      .ok { answer := some "Insufficient information", context := "", results := [] } ∧
    ({ answer := some "Insufficient information", context := "",
       results := [] } : QAResponse).results.length ≤ 5 := by
  have hask : askWithContext
      { queryVectorsExt := fun _ _ => .ok [], log := fun x => x,
        embed := fun _ => [], generateAnswer := fun _ _ => "" }
      {} "q" 5 true none =
      .ok { answer := some "Insufficient information", context := "", results := [] } := rfl
  exact ⟨hask, C8_variant_merge.2.2.1 _ _ "q" 5 true none _ hask⟩

/-! ## Claim C9: degradation and failure propagation in the orchestrator -/

theorem queryVectorsHybrid_empty (log : ℚ → ℚ) (embed : String → List ℚ)
    (gen : String → String → String) (S : Settings) (v : String) (e : List ℚ)
    (tk ck : ℕ) (a l : ℚ) (docIds : Option (List String)) :
    queryVectorsHybrid ⟨fun _ _ => .ok [], log, embed, gen⟩ S v e tk ck a l docIds =
      .ok [] := by
  unfold queryVectorsHybrid queryVectors
  rw [except_bind_ok]
  rw [if_pos rfl]
  rfl

theorem collectVariants_empty (log : ℚ → ℚ) (embed : String → List ℚ)
    (gen : String → String → String) (S : Settings) (tk ck : ℕ) (useR : Bool)
    (docIds : Option (List String)) :
    ∀ vs : List String,
      collectVariants ⟨fun _ _ => .ok [], log, embed, gen⟩ S tk ck useR docIds vs = .ok [] := by
  intro vs
  induction vs with
  | nil => rfl
  | cons v rest ih =>
    have hper : perVariant ⟨fun _ _ => .ok [], log, embed, gen⟩ S tk ck useR docIds v =
        .ok [] := by
      unfold perVariant
      rw [queryVectorsHybrid_empty, except_bind_ok]
      have hite : (if useR = true then rerankResults [] v else []) = [] := by
        cases useR <;> rfl
      rw [hite]
      rfl
    show (perVariant ⟨fun _ _ => .ok [], log, embed, gen⟩ S tk ck useR docIds v >>= _) = _
    rw [hper, except_bind_ok, ih, except_bind_ok]
    rfl

/-- **C9 (amended).**  Whenever retrieval succeeds with an empty final result
set, the orchestrator returns the explicit "Insufficient information" answer
with empty context instead of raising; `answer_with_context` likewise returns
the degraded answer string.  (A retrieval *exception*, by contrast, does
propagate out of the orchestrator — see the counterexample.) -/
theorem C9_empty_retrieval_degrades (log : ℚ → ℚ) (embed : String → List ℚ)
    (gen : String → String → String) (S : Settings) (q : String) (topK : ℕ)
    (useR : Bool) (docIds : Option (List String)) :
    askWithContext ⟨fun _ _ => .ok [], log, embed, gen⟩ S q topK useR docIds =
      .ok { answer := some "Insufficient information", context := "", results := [] } ∧
    answerWithContext ⟨fun _ _ => .ok [], log, embed, gen⟩ S q topK useR docIds =
      .ok "Insufficient information" := by
  have hask : askWithContext ⟨fun _ _ => .ok [], log, embed, gen⟩ S q topK useR docIds =
      .ok { answer := some "Insufficient information", context := "", results := [] } := by
    unfold askWithContext
    rw [collectVariants_empty, except_bind_ok]
    rw [if_pos rfl]
    rfl
  refine ⟨hask, ?_⟩
  unfold answerWithContext
  rw [hask, except_bind_ok]
  rw [if_pos (by rfl)]
  rfl

/-- **C9 (counterexample).**  A retrieval failure (the store raising) is not
caught anywhere in `ask_with_context` / `answer_with_context`: the exception
aborts the whole answer flow and is visible to the caller. -/
theorem C9_counterexample :
    askWithContext ⟨fun _ _ => .error "ClientError: Throttling", fun x => x, fun _ => [],
        fun _ _ => ""⟩ {} "q" 5 true none = .error "ClientError: Throttling" ∧
    answerWithContext ⟨fun _ _ => .error "ClientError: Throttling", fun x => x, fun _ => [],
        fun _ _ => ""⟩ {} "q" 5 true none = .error "ClientError: Throttling" :=
  ⟨rfl, rfl⟩

/-! ## Claim C4: hybrid fusion and type-aware reranking at the call sites

A one-candidate store exercising the full `ask_with_context` pipeline: the
candidate is scored by hybrid fusion and then — in the same call, because
`use_reranking` defaults to true — rescored by type-aware reranking. -/

def c4meta : Metadata :=
  { filename := "f", chunkIndex := "0", sourceText := some "x",
    chunkContentType := some "table_row" }

def c4c : Candidate := { key := some "k1", distance := some 0, metadata := c4meta }

def env4 : Env :=
  { queryVectorsExt := fun _ _ => .ok [c4c], log := fun x => x,
    embed := fun _ => [], generateAnswer := fun _ _ => "" }

/-- `c4c` after hybrid fusion: `_vec = 1`, `_lex = 0`,
`_hybrid = rerank_score = 0.75`. -/
def c4h : Candidate :=
  { c4c with vec := some 1, lex := some 0, hybrid := some (3/4),
             rerankScore := some (3/4) }

/-- `c4h` after type-aware reranking: `rerank_score = 1 * (1 + 0.4) = 1.4`. -/
def c4r : Candidate := { c4h with rerankScore := some (7/5) }

/-- `c4r` after the merge step of `ask_with_context`. -/
def c4m : Candidate := { c4r with mergeScore := some (7/5) }

/-- `c4h` after the merge step, on the `use_reranking = False` path. -/
def c4n : Candidate := { c4h with mergeScore := some (3/4) }

/-- The response of `ask_with_context` with reranking enabled. -/
def c4resp : QAResponse :=
  { answer := none, context := assembleContext [c4m], results := [c4m] }

/-- The response of `ask_with_context` with reranking disabled. -/
def c4respN : QAResponse :=
  { answer := none, context := assembleContext [c4n], results := [c4n] }

theorem c4_vars : variations "value" = ["value"] := by decide

theorem c4_tok1 : tokenizeList "value" = ["value"] := by decide

theorem c4_tok2 : tokenizeList (contentOf c4c) = ["x"] := by decide

theorem c4_base : baseRelevance c4c = 1 := by
  show (1 : ℚ) / (1 + max 0 0) = 1
  norm_num

theorem c4_normSim : normSimAll [1] = [1] := by
  unfold normSimAll
  simp only [List.map_cons, List.map_nil, minQ, maxQ, List.foldl]
  rw [if_true]

theorem c4_bm25 : bm25 (fun x => x) ["value"] [["x"]] = [0] := by decide

theorem c4_normLex : normLexAll [0] = [0] := by
  unfold normLexAll
  simp only [List.map_cons, List.map_nil, minQ, maxQ, List.foldl]
  rw [if_true, if_neg (by norm_num)]

theorem c4_attach : attachScores (3/4) [c4c] [1] [0] = [c4h] := by
  simp only [attachScores]
  norm_num [c4h]

theorem c4_sort_h : sortDescBy (fun c : Candidate => c.hybrid.getD 0) [c4h] = [c4h] := rfl

theorem c4_pick : pickBest (3/5) [] [c4h] = some c4h := by
  unfold pickBest mmrOf
  simp only [List.foldl]
  norm_num [c4h, c4c]

theorem c4_mmr : mmrSelect (3/5) 5 60 [c4h] = [c4h] := by
  unfold mmrSelect
  rw [c4_sort_h]
  show sortDescBy _ (mmrLoop (3/5) 5 60 1 [c4h] []) = _
  rw [show (1 : ℕ) = 0 + 1 from rfl]
  simp only [mmrLoop]
  rw [if_neg (by simp)]
  simp only [List.take, c4_pick]
  simp only [List.nil_append]
  exact c4_sort_h

theorem c4_hybridRank : hybridRank (fun x => x) "value" (3/4) (3/5) 5 60 [c4c] = [c4h] := by
  simp only [hybridRank, List.map_cons, List.map_nil]
  rw [c4_base, c4_tok1, c4_tok2, c4_normSim, c4_bm25]
  rw [if_neg (by simp)]
  rw [c4_normLex, c4_attach]
  exact c4_mmr

/-- The rerank formula on the hybrid-scored candidate:
`1 * (1 + 0.4 + 0 + 0) = 1.4` (the query `"value"` has table intent and the
chunk type is `table_row`). -/
theorem c4_rerankValue : rerankValue "value" c4h = 7/5 := by
  have ht : specTypeBoost "value" c4h = 2/5 := by
    simp only [specTypeBoost]
    rw [if_pos (by decide)]
  have htb : specTableBoost "value" c4h = 0 := by
    simp only [specTableBoost]
    rw [if_neg (by decide)]
  have hk : specKeywordBoost "value" c4h = 0 := by
    simp only [specKeywordBoost]
    rw [if_neg (by decide)]
  have hb : baseRelevance c4h = 1 := by
    show (1 : ℚ) / (1 + max 0 0) = 1
    norm_num
  unfold rerankValue
  rw [ht, htb, hk, hb]
  norm_num

theorem c4_rerank : rerankResults [c4h] "value" = [c4r] := by
  unfold rerankResults sortDescBy
  simp only [List.map_cons, List.map_nil, List.insertionSort, List.orderedInsert]
  rw [rerankOne_eq, c4_rerankValue]
  rfl

theorem c4_perVariant_true : perVariant env4 {} 5 60 true none "value" = .ok [c4r] := by
  show Except.ok (rerankResults (hybridRank (fun x => x) "value" (3/4) (3/5) 5 60 [c4c])
    "value") = Except.ok [c4r]
  rw [c4_hybridRank, c4_rerank]

theorem c4_perVariant_false : perVariant env4 {} 5 60 false none "value" = .ok [c4h] := by
  show Except.ok (hybridRank (fun x => x) "value" (3/4) (3/5) 5 60 [c4c]) = Except.ok [c4h]
  rw [c4_hybridRank]

theorem c4_ask_true :
    askWithContext env4 {} "value" 5 true none = .ok c4resp := by
  show (collectVariants env4 {} 5 60 true none (variations "value") >>= _) = _
  have hcoll : collectVariants env4 {} 5 60 true none (variations "value") = .ok [c4r] := by
    rw [c4_vars]
    show (perVariant env4 {} 5 60 true none "value" >>= fun rs =>
      collectVariants env4 {} 5 60 true none [] >>= fun more => pure (rs ++ more)) =
        Except.ok [c4r]
    rw [c4_perVariant_true, except_bind_ok]
    rfl
  rw [hcoll, except_bind_ok]
  rfl

theorem c4_ask_false :
    askWithContext env4 {} "value" 5 false none = .ok c4respN := by
  show (collectVariants env4 {} 5 60 false none (variations "value") >>= _) = _
  have hcoll : collectVariants env4 {} 5 60 false none (variations "value") = .ok [c4h] := by
    rw [c4_vars]
    show (perVariant env4 {} 5 60 false none "value" >>= fun rs =>
      collectVariants env4 {} 5 60 false none [] >>= fun more => pure (rs ++ more)) =
        Except.ok [c4h]
    rw [c4_perVariant_false, except_bind_ok]
    rfl
  rw [hcoll, except_bind_ok]
  rfl

/-- **C4 (counterexample).**  Hybrid fusion and type-aware reranking are
*not* mutually exclusive strategies: with `use_reranking = true` (the
default) `ask_with_context` runs every variant through `query_vectors_hybrid`
and then reranks those same hybrid-fused candidates in the same call.  On a
one-candidate store, the returned result still carries its hybrid fusion
score (`_hybrid = 0.75`) while its `rerank_score` has been overwritten by the
type-aware formula (`1.4 ≠ 0.75`); only with `use_reranking = false` does the
hybrid score survive as the final `rerank_score`. -/
theorem C4_counterexample :
    askWithContext env4 {} "value" 5 true none = .ok c4resp ∧
    askWithContext env4 {} "value" 5 false none = .ok c4respN ∧
    c4resp.results = [c4m] ∧ c4respN.results = [c4n] ∧
    c4m.hybrid = some (3/4) ∧
    c4m.rerankScore = some (7/5) ∧
    rerankValue "value" c4h = 7/5 ∧
    c4n.rerankScore = some (3/4) ∧
    (7 : ℚ)/5 ≠ 3/4 :=
  ⟨c4_ask_true, c4_ask_false, rfl, rfl, rfl, rfl, c4_rerankValue, rfl, by norm_num⟩

/-- Provenance of the variant loop: every collected result comes from the
(optionally reranked) hybrid retrieval of one of the issued variants. -/
theorem collect_mem {env : Env} {S : Settings} {tk ck : ℕ} {useR : Bool}
    {docIds : Option (List String)} :
    ∀ {vs : List String} {rs : List Candidate},
      collectVariants env S tk ck useR docIds vs = .ok rs →
      ∀ r ∈ rs, ∃ v ∈ vs, ∃ hs,
        perVariant env S tk ck useR docIds v = .ok hs ∧ r ∈ hs := by
  intro vs
  induction vs with
  | nil =>
    intro rs h r hr
    have : rs = [] := by
      simpa [collectVariants] using h.symm
    subst this
    cases hr
  | cons v rest ih =>
    intro rs h r hr
    simp only [collectVariants] at h
    cases hp : perVariant env S tk ck useR docIds v with
    | error e =>
      rw [hp, except_bind_error] at h
      cases h
    | ok rs1 =>
      rw [hp, except_bind_ok] at h
      cases hc : collectVariants env S tk ck useR docIds rest with
      | error e =>
        rw [hc, except_bind_error] at h
        cases h
      | ok more =>
        rw [hc, except_bind_ok] at h
        have hrs : rs = rs1 ++ more := by
          cases h
          rfl
        subst hrs
        rcases List.mem_append.mp hr with h1 | h2
        · exact ⟨v, List.mem_cons_self v rest, rs1, hp, h1⟩
        · rcases ih hc r h2 with ⟨v2, hv2, hs, hpv, hmem⟩
          exact ⟨v2, List.mem_cons_of_mem v hv2, hs, hpv, hmem⟩

/-- With reranking enabled, every result a variant contributes carries the
type-aware rerank score for that variant. -/
theorem perVariant_true_mem {env : Env} {S : Settings} {tk ck : ℕ}
    {docIds : Option (List String)} {v : String} {rs : List Candidate}
    (h : perVariant env S tk ck true docIds v = .ok rs) :
    ∀ r ∈ rs, r.rerankScore = some (rerankValue v r) := by
  unfold perVariant at h
  cases hq : queryVectorsHybrid env S v (env.embed v) tk ck S.retrievalAlpha
      S.retrievalLambdaMmr docIds with
  | error e =>
    rw [hq, except_bind_error] at h
    cases h
  | ok hs =>
    rw [hq, except_bind_ok] at h
    have hrs : rs = rerankResults hs v := by
      cases h
      rfl
    subst hrs
    intro r hr
    rcases rerank_mem hr with ⟨r0, _, rfl⟩
    rfl

/-- **C4 (amended).**  In the multi-variant ask path with
`use_reranking = true` (the default), hybrid fusion and type-aware reranking
are composed in the same retrieval call: every result of a successful
`ask_with_context` carries a `rerank_score` equal to the type-aware rerank
formula evaluated for one of the issued query variants — on candidates that
had already been scored by hybrid fusion.  Reranking is skipped only when the
caller passes `use_reranking = false`. -/
theorem C4_rerank_composition (env : Env) (S : Settings) (q : String) (topK : ℕ)
    (docIds : Option (List String)) (resp : QAResponse)
    (h : askWithContext env S q topK true docIds = .ok resp) :
    ∀ r ∈ resp.results, ∃ v ∈ variations q, r.rerankScore = some (rerankValue v r) := by
  unfold askWithContext at h
  cases hc : collectVariants env S (min S.retrievalMaxTopK (max 5 topK))
      (min S.retrievalMaxCandidates (max S.retrievalCandidateK (topK * 3)))
      true docIds (variations q) with
  | error e =>
    rw [hc, except_bind_error] at h
    cases h
  | ok allResults =>
    rw [hc, except_bind_ok] at h
    by_cases hnil : allResults = []
    · rw [if_pos hnil] at h
      cases h
      intro r hr
      cases hr
    · rw [if_neg hnil] at h
      cases h
      intro r hr
      have hr2 : r ∈ (sortDescBy (fun x : Candidate => x.mergeScore.getD 0)
          (mergeByKey allResults)).take topK := hr
      have hr1 : r ∈ sortDescBy (fun x : Candidate => x.mergeScore.getD 0)
          (mergeByKey allResults) := List.take_subset _ _ hr2
      have hr3 : r ∈ mergeByKey allResults := (sortDescBy_perm _ _).mem_iff.mp hr1
      rcases (mergeByKey_spec allResults).2.1 r hr3 with ⟨r1, hr1mem, _, hmeq, _⟩
      rcases collect_mem hc r1 hr1mem with ⟨v, hv, hs, hpv, hmem⟩
      have hscore := perVariant_true_mem hpv r1 hmem
      refine ⟨v, hv, ?_⟩
      rw [hmeq]
      exact hscore

/-- Witness for C4 (amended) on the one-candidate store. -/
theorem C4_rerank_composition_witness :
    askWithContext env4 {} "value" 5 true none = .ok c4resp ∧
    ∀ r ∈ c4resp.results,
      ∃ v ∈ variations "value", r.rerankScore = some (rerankValue v r) :=
  ⟨c4_ask_true, C4_rerank_composition env4 {} "value" 5 none _ c4_ask_true⟩

end CGpt
